import Mathlib

/-!
Verification of the AICleaner content-script normalization engine.

The engine's text data is modelled as lists of Unicode code points
(all characters involved lie in the Basic Multilingual Plane, so code
points coincide with UTF-16 units and with what the source's regular
expressions match character by character).  Each transformation pass of
`applyTextFixes`, the eligibility pre-check `needsProcessing`, the tree
scanner `replaceInRoot`, the mutation handler `handleMutations`, the
storage merge `updateStorageWithResults` and the settings loader
`loadSettings` are translated directly from the content script.
-/

/-- Strings of the host language, as lists of code points. -/
abbrev JStr := List Nat

/-- Settings snapshot used by the content script (content.js constructor /
`loadSettings`): a replacement string for dashes plus one boolean per
transformation category. -/
structure Settings where
  replacer : JStr
  fixEmDash : Bool
  fixCurlyQuotes : Bool
  fixEllipsis : Bool
  fixInvisibleChars : Bool
  fixAccents : Bool
  fixSpaces : Bool
deriving Repr, DecidableEq

/-- Per-category fix counters, as initialized at the top of `applyTextFixes`. -/
structure FixCounts where
  emDash : Nat
  curlyQuotes : Nat
  ellipsis : Nat
  invisibleChars : Nat
  accents : Nat
  spaces : Nat
deriving Repr, DecidableEq

/-- Characters matched by the em/en dash regex `[—–]`. -/
def isEmDashChar (c : Nat) : Bool := c == 0x2014 || c == 0x2013

/-- Characters matched by `[“”‘’]` (all curly quotes). -/
def isCurlyQuoteChar (c : Nat) : Bool :=
  c == 0x201C || c == 0x201D || c == 0x2018 || c == 0x2019

/-- Characters matched by `[“”]` (curly double quotes). -/
def isCurlyDoubleChar (c : Nat) : Bool := c == 0x201C || c == 0x201D

/-- Characters matched by `[‘’]` (curly single quotes). -/
def isCurlySingleChar (c : Nat) : Bool := c == 0x2018 || c == 0x2019

/-- Characters matched by the ellipsis regex `…`. -/
def isEllipsisChar (c : Nat) : Bool := c == 0x2026

/-- Characters matched by the invisible-character regex (NBSP, the block
U+2000..U+200F, U+2028, U+2029, U+202F, U+205F, U+3000, U+FEFF). -/
def isInvisibleChar (c : Nat) : Bool :=
  c == 0xA0 || (0x2000 ≤ c && c ≤ 0x200F) || c == 0x2028 || c == 0x2029 ||
  c == 0x202F || c == 0x205F || c == 0x3000 || c == 0xFEFF

/-- Characters matched by the accent-pass regex `[À-ÿ]` (Latin-1 range U+00C0..U+00FF). -/
def isLatin1SupChar (c : Nat) : Bool := 0xC0 ≤ c && c ≤ 0xFF

/-- Characters matched by the regex class `\s` of the host language
(whitespace per ECMAScript: tab, line terminators, space, NBSP, U+1680,
U+2000..U+200A, U+2028, U+2029, U+202F, U+205F, U+3000, U+FEFF). -/
def isJsWhitespace (c : Nat) : Bool :=
  c == 9 || c == 10 || c == 11 || c == 12 || c == 13 || c == 32 ||
  c == 0xA0 || c == 0x1680 || (0x2000 ≤ c && c ≤ 0x200A) ||
  c == 0x2028 || c == 0x2029 || c == 0x202F || c == 0x205F ||
  c == 0x3000 || c == 0xFEFF

/-- The `accentMap` table of `applyTextFixes`, as an association list
(key code point, replacement code point). -/
def accentPairs : List (Nat × Nat) :=
  [(0xC0, 65), (0xC1, 65), (0xC2, 65), (0xC3, 65), (0xC4, 65), (0xC5, 65),
   (0xE0, 97), (0xE1, 97), (0xE2, 97), (0xE3, 97), (0xE4, 97), (0xE5, 97),
   (0xC8, 69), (0xC9, 69), (0xCA, 69), (0xCB, 69),
   (0xE8, 101), (0xE9, 101), (0xEA, 101), (0xEB, 101),
   (0xCC, 73), (0xCD, 73), (0xCE, 73), (0xCF, 73),
   (0xEC, 105), (0xED, 105), (0xEE, 105), (0xEF, 105),
   (0xD2, 79), (0xD3, 79), (0xD4, 79), (0xD5, 79), (0xD6, 79),
   (0xF2, 111), (0xF3, 111), (0xF4, 111), (0xF5, 111), (0xF6, 111),
   (0xD9, 85), (0xDA, 85), (0xDB, 85), (0xDC, 85),
   (0xF9, 117), (0xFA, 117), (0xFB, 117), (0xFC, 117),
   (0xD1, 78), (0xF1, 110), (0xC7, 67), (0xE7, 99)]

/-- Lookup in `accentMap`: `some` replacement when the character is a key
of the table, `none` otherwise. -/
def accentMap (c : Nat) : Option Nat :=
  (accentPairs.find? (fun p => p.1 == c)).map (fun p => p.2)

/-- The dollar sign, which starts the replacement patterns of the host's
`String.prototype.replace` with a string argument. -/
def isDollarChar (c : Nat) : Bool := c == 36

/-- GetSubstitution of the host language for a regular expression with no
capture groups: in the replacement template, a dollar pair expands to a
literal dollar, dollar-ampersand to the matched substring, dollar-backtick
to the portion of the subject before the match, dollar-quote to the
portion after it; a dollar followed by anything else (including digits,
since the dash regex has no capture groups, and the angle form, since it
has no named groups) is copied literally, as is every other character. -/
def getSubstitution (matched pre suf : JStr) : JStr → JStr
  | [] => []
  | [c] => [c]
  | c :: d :: rest =>
    if c = 36 then
      if d = 36 then 36 :: getSubstitution matched pre suf rest
      else if d = 38 then matched ++ getSubstitution matched pre suf rest
      else if d = 96 then pre ++ getSubstitution matched pre suf rest
      else if d = 39 then suf ++ getSubstitution matched pre suf rest
      else 36 :: getSubstitution matched pre suf (d :: rest)
    else c :: getSubstitution matched pre suf (d :: rest)

/-- Auxiliary for `replaceDashes`: walks the subject keeping the original
characters already passed (the match's preceding portion); each dash match
is replaced by the substituted template, every other character copied. -/
def replaceDashesAux (repl : JStr) : JStr → JStr → JStr
  | _, [] => []
  | pre, c :: rest =>
    if isEmDashChar c then
      getSubstitution [c] pre rest repl ++ replaceDashesAux repl (pre ++ [c]) rest
    else c :: replaceDashesAux repl (pre ++ [c]) rest

/-- The global `replace(dashRegex, settings.replacer)` of the source: every
em/en dash match is replaced by the template with the host's
dollar-substitution applied against the original subject. -/
def replaceDashes (repl t : JStr) : JStr := replaceDashesAux repl [] t

/-- Em/en dash pass of `applyTextFixes`: when enabled and the text has a
match, the dash regex replace runs with the configured replacement string
as the template and the count is the number of matched dashes. -/
def emDashPass (s : Settings) (t : JStr) : JStr × Nat :=
  if s.fixEmDash then
    let ms := t.filter isEmDashChar
    if ms.isEmpty then (t, 0)
    else (replaceDashes s.replacer t, ms.length)
  else (t, 0)

/-- Curly-quote pass: when enabled and the text has a match, double curly
quotes become a straight double quote and single curly quotes a straight
single quote (two successive replaces in the source); the count is the
number of curly-quote characters matched before the rewrite. -/
def curlyPass (s : Settings) (t : JStr) : JStr × Nat :=
  if s.fixCurlyQuotes then
    let ms := t.filter isCurlyQuoteChar
    if ms.isEmpty then (t, 0)
    else (((t.map (fun c => if isCurlyDoubleChar c then 34 else c)).map
            (fun c => if isCurlySingleChar c then 39 else c)), ms.length)
  else (t, 0)

/-- Ellipsis pass: each U+2026 becomes three periods; the count is the
number of ellipsis characters. -/
def ellipsisPass (s : Settings) (t : JStr) : JStr × Nat :=
  if s.fixEllipsis then
    let ms := t.filter isEllipsisChar
    if ms.isEmpty then (t, 0)
    else (t.flatMap (fun c => if isEllipsisChar c then [46, 46, 46] else [c]), ms.length)
  else (t, 0)

/-- Invisible-character pass: each matched character becomes a plain space. -/
def invisiblePass (s : Settings) (t : JStr) : JStr × Nat :=
  if s.fixInvisibleChars then
    let ms := t.filter isInvisibleChar
    if ms.isEmpty then (t, 0)
    else (t.map (fun c => if isInvisibleChar c then 32 else c), ms.length)
  else (t, 0)

/-- Accent pass: the regex `[À-ÿ]` drives a callback that replaces mapped
characters by their table entry and counts them; unmapped characters in
the range pass through uncounted. -/
def accentsPass (s : Settings) (t : JStr) : JStr × Nat :=
  if s.fixAccents then
    (t.map (fun c => if isLatin1SupChar c then (accentMap c).getD c else c),
     (t.filter (fun c => isLatin1SupChar c && (accentMap c).isSome)).length)
  else (t, 0)

/-- Auxiliary for `collapseWs`: the boolean records whether the previous
character was whitespace (i.e. we are inside a run already replaced). -/
def collapseWsAux : Bool → JStr → JStr
  | _, [] => []
  | prevWs, c :: rest =>
    if isJsWhitespace c then
      if prevWs then collapseWsAux true rest else 32 :: collapseWsAux true rest
    else c :: collapseWsAux false rest

/-- Replacement `replace(/\s+/g, one space)`: every maximal whitespace run
becomes a single plain space. -/
def collapseWs (t : JStr) : JStr := collapseWsAux false t

/-- Auxiliary for `wsRunCount`. -/
def wsRunCountAux : Bool → JStr → Nat
  | _, [] => 0
  | prevWs, c :: rest =>
    if isJsWhitespace c then
      (if prevWs then 0 else 1) + wsRunCountAux true rest
    else wsRunCountAux false rest

/-- Number of maximal whitespace runs: the length of `match(/\s+/g)`,
with 0 for a null match result. -/
def wsRunCount (t : JStr) : Nat := wsRunCountAux false t

/-- Drops a trailing whitespace run (the right half of `trim()`). -/
def dropTrailingWs : JStr → JStr
  | [] => []
  | c :: rest =>
    let r := dropTrailingWs rest
    if r.isEmpty && isJsWhitespace c then [] else c :: r

/-- The host `trim()`: removes leading and trailing whitespace. -/
def trimWs (t : JStr) : JStr := dropTrailingWs (t.dropWhile isJsWhitespace)

/-- Space-normalization pass: with `beforeSpaces = match(/\s+/g)` and
`afterSpaces = replace(/\s+/g, space).trim()`, the rewrite (and the
count, the number of runs) happen only when a run exists and
`afterSpaces` differs from the trimmed current text. -/
def spacesPass (s : Settings) (t : JStr) : JStr × Nat :=
  if s.fixSpaces then
    let before := wsRunCount t
    let after := trimWs (collapseWs t)
    if 0 < before ∧ after ≠ trimWs t then (after, before) else (t, 0)
  else (t, 0)

/-- The Transform Library `applyTextFixes(text)` of the content script:
the six passes in source order, returning the rewritten text and the
per-category counts. -/
def applyTextFixes (s : Settings) (text : JStr) : JStr × FixCounts :=
  let p1 := emDashPass s text
  let p2 := curlyPass s p1.1
  let p3 := ellipsisPass s p2.1
  let p4 := invisiblePass s p3.1
  let p5 := accentsPass s p4.1
  let p6 := spacesPass s p5.1
  (p6.1, ⟨p1.2, p2.2, p3.2, p4.2, p5.2, p6.2⟩)

/-- Whether two consecutive whitespace characters occur (`/\s{2,}/.test`). -/
def hasDoubleWs : JStr → Bool
  | [] => false
  | [_] => false
  | a :: b :: rest => (isJsWhitespace a && isJsWhitespace b) || hasDoubleWs (b :: rest)

/-- The classifier pre-check `needsProcessing(text)`: false on empty text,
otherwise true exactly when some enabled category has a matching
character (the chain of early returns in the source). -/
def needsProcessing (s : Settings) (t : JStr) : Bool :=
  if t.isEmpty then false
  else
    (s.fixEmDash && t.any isEmDashChar) ||
    (s.fixCurlyQuotes && t.any isCurlyQuoteChar) ||
    (s.fixEllipsis && t.any isEllipsisChar) ||
    (s.fixInvisibleChars && t.any isInvisibleChar) ||
    (s.fixAccents && t.any isLatin1SupChar) ||
    (s.fixSpaces && hasDoubleWs t)

/-- No character of the text satisfies the class p. -/
def NoneOf (p : Nat → Bool) (t : JStr) : Prop := ∀ c ∈ t, p c = false

/-- Replacement values of the accent table. -/
def accentValues : JStr := accentPairs.map (fun p => p.2)

/-- Class predicate of the accent pass: characters the callback rewrites. -/
def accClass (c : Nat) : Bool := isLatin1SupChar c && (accentMap c).isSome

theorem NoneOf.of_mem {p : Nat → Bool} {t2 t1 : JStr} (extra : JStr)
    (hm : ∀ c ∈ t2, c ∈ t1 ∨ c ∈ extra)
    (h1 : NoneOf p t1) (h2 : ∀ c ∈ extra, p c = false) : NoneOf p t2 := by
  intro c hc
  rcases hm c hc with h | h
  · exact h1 c h
  · exact h2 c h

theorem mem_getSubstitution (matched pre suf : JStr) :
    ∀ repl : JStr, ∀ c ∈ getSubstitution matched pre suf repl,
      c ∈ matched ∨ c ∈ pre ∨ c ∈ suf ∨ c ∈ repl := by
  refine getSubstitution.induct matched pre suf
    (fun repl => ∀ c ∈ getSubstitution matched pre suf repl,
      c ∈ matched ∨ c ∈ pre ∨ c ∈ suf ∨ c ∈ repl) ?_ ?_ ?_ ?_ ?_ ?_ ?_ ?_
  · intro c hc
    simp [getSubstitution] at hc
  · intro a c hc
    simp only [getSubstitution, List.mem_singleton] at hc
    subst hc
    right; right; right; simp
  · intro rest ih c hc
    rw [show getSubstitution matched pre suf (36 :: 36 :: rest) =
        36 :: getSubstitution matched pre suf rest from rfl] at hc
    rcases List.mem_cons.1 hc with rfl | hc
    · right; right; right; simp
    · rcases ih c hc with h | h | h | h <;> simp [h]
  · intro rest _ ih c hc
    rw [show getSubstitution matched pre suf (36 :: 38 :: rest) =
        matched ++ getSubstitution matched pre suf rest from rfl] at hc
    rcases List.mem_append.1 hc with h | h
    · exact Or.inl h
    · rcases ih c h with h | h | h | h <;> simp [h]
  · intro rest _ _ ih c hc
    rw [show getSubstitution matched pre suf (36 :: 96 :: rest) =
        pre ++ getSubstitution matched pre suf rest from rfl] at hc
    rcases List.mem_append.1 hc with h | h
    · right; left; exact h
    · rcases ih c h with h | h | h | h <;> simp [h]
  · intro rest _ _ _ ih c hc
    rw [show getSubstitution matched pre suf (36 :: 39 :: rest) =
        suf ++ getSubstitution matched pre suf rest from rfl] at hc
    rcases List.mem_append.1 hc with h | h
    · right; right; left; exact h
    · rcases ih c h with h | h | h | h <;> simp [h]
  · intro d rest h36 h38 h96 h39 ih c hc
    rw [show getSubstitution matched pre suf (36 :: d :: rest) =
        36 :: getSubstitution matched pre suf (d :: rest) from by
      simp [getSubstitution, h36, h38, h96, h39]] at hc
    rcases List.mem_cons.1 hc with rfl | hc
    · right; right; right; simp
    · rcases ih c hc with h | h | h | h <;> simp_all
  · intro a d rest ha ih c hc
    rw [show getSubstitution matched pre suf (a :: d :: rest) =
        a :: getSubstitution matched pre suf (d :: rest) from by
      simp [getSubstitution, ha]] at hc
    rcases List.mem_cons.1 hc with rfl | hc
    · right; right; right; simp
    · rcases ih c hc with h | h | h | h <;> simp_all

theorem getSubstitution_no_dollar (matched pre suf : JStr) :
    ∀ repl : JStr, NoneOf isDollarChar repl →
      getSubstitution matched pre suf repl = repl := by
  refine getSubstitution.induct matched pre suf
    (fun repl => NoneOf isDollarChar repl →
      getSubstitution matched pre suf repl = repl) ?_ ?_ ?_ ?_ ?_ ?_ ?_ ?_
  · intro _; rfl
  · intro _ _; rfl
  · intro rest _ h
    exact absurd (h 36 (List.mem_cons_self _ _)) (by decide)
  · intro rest _ _ h
    exact absurd (h 36 (List.mem_cons_self _ _)) (by decide)
  · intro rest _ _ _ h
    exact absurd (h 36 (List.mem_cons_self _ _)) (by decide)
  · intro rest _ _ _ _ h
    exact absurd (h 36 (List.mem_cons_self _ _)) (by decide)
  · intro d rest _ _ _ _ _ h
    exact absurd (h 36 (List.mem_cons_self _ _)) (by decide)
  · intro a d rest ha ih h
    simp only [getSubstitution, if_neg ha]
    rw [ih (fun x hx => h x (List.mem_cons_of_mem _ hx))]

theorem mem_replaceDashesAux (repl : JStr) :
    ∀ (t pre : JStr), ∀ c ∈ replaceDashesAux repl pre t,
      c ∈ pre ∨ c ∈ t ∨ c ∈ repl := by
  intro t
  induction t with
  | nil => intro pre c hc; simp [replaceDashesAux] at hc
  | cons a rest ih =>
    intro pre c hc
    by_cases ha : isEmDashChar a = true
    · simp only [replaceDashesAux, ha, if_true] at hc
      rcases List.mem_append.1 hc with h | h
      · rcases mem_getSubstitution [a] pre rest repl c h with h2 | h2 | h2 | h2
        · right; left
          simp only [List.mem_singleton] at h2
          subst h2
          exact List.mem_cons_self _ _
        · exact Or.inl h2
        · right; left; exact List.mem_cons_of_mem _ h2
        · right; right; exact h2
      · rcases ih (pre ++ [a]) c h with h2 | h2 | h2
        · rcases List.mem_append.1 h2 with h3 | h3
          · exact Or.inl h3
          · right; left
            simp only [List.mem_singleton] at h3
            subst h3
            exact List.mem_cons_self _ _
        · right; left; exact List.mem_cons_of_mem _ h2
        · right; right; exact h2
    · simp only [replaceDashesAux, ha, Bool.false_eq_true, if_false, List.mem_cons] at hc
      rcases hc with rfl | hc
      · right; left; exact List.mem_cons_self _ _
      · rcases ih (pre ++ [a]) c hc with h2 | h2 | h2
        · rcases List.mem_append.1 h2 with h3 | h3
          · exact Or.inl h3
          · right; left
            simp only [List.mem_singleton] at h3
            subst h3
            exact List.mem_cons_self _ _
        · right; left; exact List.mem_cons_of_mem _ h2
        · right; right; exact h2

theorem replaceDashesAux_no_dollar {repl : JStr} (hnd : NoneOf isDollarChar repl) :
    ∀ (t pre : JStr), replaceDashesAux repl pre t =
      t.flatMap (fun c => if isEmDashChar c then repl else [c]) := by
  intro t
  induction t with
  | nil => intro pre; rfl
  | cons a rest ih =>
    intro pre
    by_cases ha : isEmDashChar a = true
    · simp only [replaceDashesAux, ha, if_true, List.flatMap_cons]
      rw [getSubstitution_no_dollar [a] pre rest repl hnd, ih (pre ++ [a])]
    · simp only [replaceDashesAux, ha, Bool.false_eq_true, if_false, List.flatMap_cons]
      rw [ih (pre ++ [a])]
      rfl

theorem mem_emDashPass (s : Settings) (t : JStr) :
    ∀ c ∈ (emDashPass s t).1, c ∈ t ∨ c ∈ s.replacer := by
  intro c hc
  by_cases hf : s.fixEmDash = true
  · by_cases he : (t.filter isEmDashChar).isEmpty = true
    · simp only [emDashPass, hf, if_true, he] at hc
      exact Or.inl hc
    · simp only [emDashPass, hf, if_true, he, if_false, Bool.false_eq_true] at hc
      unfold replaceDashes at hc
      rcases mem_replaceDashesAux s.replacer t [] c hc with h | h | h
      · simp at h
      · exact Or.inl h
      · exact Or.inr h
  · simp only [emDashPass, hf] at hc
    exact Or.inl hc

theorem mem_curlyPass (s : Settings) (t : JStr) :
    ∀ c ∈ (curlyPass s t).1, c ∈ t ∨ c ∈ [34, 39] := by
  intro c hc
  by_cases hf : s.fixCurlyQuotes = true
  · by_cases he : (t.filter isCurlyQuoteChar).isEmpty = true
    · simp only [curlyPass, hf, if_true, he] at hc
      exact Or.inl hc
    · simp only [curlyPass, hf, if_true, he, if_false, Bool.false_eq_true] at hc
      rcases List.mem_map.1 hc with ⟨b, hb, hbc⟩
      rcases List.mem_map.1 hb with ⟨a, ha, hab⟩
      by_cases h1 : isCurlyDoubleChar a
      · rw [if_pos h1] at hab
        subst hab
        simp only [isCurlySingleChar] at hbc
        norm_num at hbc
        subst hbc
        right; simp
      · rw [if_neg h1] at hab
        subst hab
        by_cases h2 : isCurlySingleChar a
        · rw [if_pos h2] at hbc
          subst hbc; right; simp
        · rw [if_neg h2] at hbc
          subst hbc; exact Or.inl ha
  · simp only [curlyPass, hf] at hc
    exact Or.inl hc

theorem mem_ellipsisPass (s : Settings) (t : JStr) :
    ∀ c ∈ (ellipsisPass s t).1, c ∈ t ∨ c ∈ [46] := by
  intro c hc
  by_cases hf : s.fixEllipsis = true
  · by_cases he : (t.filter isEllipsisChar).isEmpty = true
    · simp only [ellipsisPass, hf, if_true, he] at hc
      exact Or.inl hc
    · simp only [ellipsisPass, hf, if_true, he, if_false, Bool.false_eq_true] at hc
      rcases List.mem_flatMap.1 hc with ⟨a, ha, hmem⟩
      by_cases hd : isEllipsisChar a
      · rw [if_pos hd] at hmem
        right
        simpa using hmem
      · rw [if_neg hd] at hmem
        simp only [List.mem_singleton] at hmem
        subst hmem; exact Or.inl ha
  · simp only [ellipsisPass, hf] at hc
    exact Or.inl hc

theorem mem_invisiblePass (s : Settings) (t : JStr) :
    ∀ c ∈ (invisiblePass s t).1, c ∈ t ∨ c ∈ [32] := by
  intro c hc
  by_cases hf : s.fixInvisibleChars = true
  · by_cases he : (t.filter isInvisibleChar).isEmpty = true
    · simp only [invisiblePass, hf, if_true, he] at hc
      exact Or.inl hc
    · simp only [invisiblePass, hf, if_true, he, if_false, Bool.false_eq_true] at hc
      rcases List.mem_map.1 hc with ⟨a, ha, hab⟩
      by_cases hd : isInvisibleChar a
      · rw [if_pos hd] at hab
        subst hab; right; simp
      · rw [if_neg hd] at hab
        subst hab; exact Or.inl ha
  · simp only [invisiblePass, hf] at hc
    exact Or.inl hc

theorem accentMap_mem_values {c v : Nat} (h : accentMap c = some v) : v ∈ accentValues := by
  unfold accentMap at h
  rcases hfind : accentPairs.find? (fun p => p.1 == c) with _ | p
  · rw [hfind] at h; simp at h
  · rw [hfind] at h
    have hp : p ∈ accentPairs := List.mem_of_find?_eq_some hfind
    have h2 : p.2 = v := by simpa using h
    subst h2
    exact List.mem_map.2 ⟨p, hp, rfl⟩

theorem mem_accentsPass (s : Settings) (t : JStr) :
    ∀ c ∈ (accentsPass s t).1, c ∈ t ∨ c ∈ accentValues := by
  intro c hc
  by_cases hf : s.fixAccents = true
  · simp only [accentsPass, hf, if_true] at hc
    rcases List.mem_map.1 hc with ⟨a, ha, hab⟩
    by_cases hr : isLatin1SupChar a
    · rw [if_pos hr] at hab
      rcases hm : accentMap a with _ | v
      · rw [hm] at hab
        simp only [Option.getD_none] at hab
        subst hab; exact Or.inl ha
      · rw [hm] at hab
        simp only [Option.getD_some] at hab
        subst hab
        exact Or.inr (accentMap_mem_values hm)
    · rw [if_neg hr] at hab
      subst hab; exact Or.inl ha
  · simp only [accentsPass, hf] at hc
    exact Or.inl hc

theorem mem_collapseWsAux :
    ∀ (t : JStr) (b : Bool), ∀ c ∈ collapseWsAux b t,
      (c ∈ t ∧ isJsWhitespace c = false) ∨ c = 32 := by
  intro t
  induction t with
  | nil => intro b c hc; simp [collapseWsAux] at hc
  | cons a r ih =>
    intro b c hc
    by_cases hw : isJsWhitespace a = true
    · by_cases hb : b = true
      · simp only [collapseWsAux, hw, if_true, hb] at hc
        rcases ih true c hc with ⟨h1, h2⟩ | h
        · exact Or.inl ⟨List.mem_cons_of_mem _ h1, h2⟩
        · exact Or.inr h
      · simp only [collapseWsAux, hw, if_true, hb, Bool.false_eq_true, if_false,
          List.mem_cons] at hc
        rcases hc with rfl | hc
        · exact Or.inr rfl
        · rcases ih true c hc with ⟨h1, h2⟩ | h
          · exact Or.inl ⟨List.mem_cons_of_mem _ h1, h2⟩
          · exact Or.inr h
    · simp only [collapseWsAux, hw, Bool.false_eq_true, if_false, List.mem_cons] at hc
      rcases hc with rfl | hc
      · exact Or.inl ⟨List.mem_cons_self _ _, by simpa using hw⟩
      · rcases ih false c hc with ⟨h1, h2⟩ | h
        · exact Or.inl ⟨List.mem_cons_of_mem _ h1, h2⟩
        · exact Or.inr h

theorem mem_dropTrailingWs : ∀ (t : JStr), ∀ c ∈ dropTrailingWs t, c ∈ t := by
  intro t
  induction t with
  | nil => intro c hc; simp [dropTrailingWs] at hc
  | cons a r ih =>
    intro c hc
    by_cases h : ((dropTrailingWs r).isEmpty && isJsWhitespace a) = true
    · simp only [dropTrailingWs, h, if_true] at hc
      simp at hc
    · simp only [dropTrailingWs, h, Bool.false_eq_true, if_false, List.mem_cons] at hc
      rcases hc with rfl | hc
      · exact List.mem_cons_self _ _
      · exact List.mem_cons_of_mem _ (ih c hc)

theorem mem_trimWs (t : JStr) : ∀ c ∈ trimWs t, c ∈ t := by
  intro c hc
  exact (List.dropWhile_sublist isJsWhitespace).mem
    (mem_dropTrailingWs _ c hc)

theorem spacesPass_eq (s : Settings) (t : JStr) (hf : s.fixSpaces = true) :
    spacesPass s t =
      if 0 < wsRunCount t ∧ trimWs (collapseWs t) ≠ trimWs t
      then (trimWs (collapseWs t), wsRunCount t) else (t, 0) := by
  simp [spacesPass, hf]

theorem mem_spacesPass (s : Settings) (t : JStr) :
    ∀ c ∈ (spacesPass s t).1, c ∈ t ∨ c ∈ [32] := by
  intro c hc
  by_cases hf : s.fixSpaces = true
  · by_cases hcond : 0 < wsRunCount t ∧ trimWs (collapseWs t) ≠ trimWs t
    · rw [spacesPass_eq s t hf, if_pos hcond] at hc
      have h1 : c ∈ collapseWs t := mem_trimWs _ c hc
      rcases mem_collapseWsAux t false c h1 with ⟨h2, _⟩ | h
      · exact Or.inl h2
      · right; simp [h]
    · rw [spacesPass_eq s t hf, if_neg hcond] at hc
      exact Or.inl hc
  · simp only [spacesPass, hf] at hc
    exact Or.inl hc

theorem noneOf_of_filter_isEmpty {p : Nat → Bool} {t : JStr}
    (h : (t.filter p).isEmpty = true) : NoneOf p t := by
  intro c hc
  rw [List.isEmpty_iff, List.filter_eq_nil_iff] at h
  have h2 := h c hc
  simpa using h2

theorem emDashPass_noDash {s : Settings} (t : JStr) (hf : s.fixEmDash = true)
    (hr : NoneOf isEmDashChar s.replacer) (hnd : NoneOf isDollarChar s.replacer) :
    NoneOf isEmDashChar (emDashPass s t).1 := by
  by_cases he : (t.filter isEmDashChar).isEmpty = true
  · simp only [emDashPass, hf, if_true, he]
    exact noneOf_of_filter_isEmpty he
  · simp only [emDashPass, hf, if_true, he, Bool.false_eq_true, if_false]
    intro c hc
    unfold replaceDashes at hc
    rw [replaceDashesAux_no_dollar hnd t []] at hc
    rcases List.mem_flatMap.1 hc with ⟨a, ha, hmem⟩
    by_cases hd : isEmDashChar a = true
    · rw [if_pos hd] at hmem
      exact hr c hmem
    · rw [if_neg hd] at hmem
      simp only [List.mem_singleton] at hmem
      subst hmem
      simpa using hd

theorem curlyPass_noCurly {s : Settings} (t : JStr) (hf : s.fixCurlyQuotes = true) :
    NoneOf isCurlyQuoteChar (curlyPass s t).1 := by
  by_cases he : (t.filter isCurlyQuoteChar).isEmpty = true
  · simp only [curlyPass, hf, if_true, he]
    exact noneOf_of_filter_isEmpty he
  · simp only [curlyPass, hf, if_true, he, Bool.false_eq_true, if_false]
    intro c hc
    rcases List.mem_map.1 hc with ⟨b, hb, hbc⟩
    rcases List.mem_map.1 hb with ⟨a, _, hab⟩
    subst hbc
    subst hab
    by_cases h1 : isCurlyDoubleChar a = true
    · simp [h1, isCurlySingleChar, isCurlyQuoteChar]
    · by_cases h2 : isCurlySingleChar a = true
      · simp [h1, h2, isCurlyQuoteChar]
      · simp only [h1, h2, Bool.false_eq_true, if_false]
        simp only [Bool.not_eq_true] at h1 h2
        simp only [isCurlyDoubleChar, isCurlySingleChar, Bool.or_eq_false_iff] at h1 h2
        simp [isCurlyQuoteChar, h1.1, h1.2, h2.1, h2.2]

theorem ellipsisPass_noEllipsis {s : Settings} (t : JStr) (hf : s.fixEllipsis = true) :
    NoneOf isEllipsisChar (ellipsisPass s t).1 := by
  by_cases he : (t.filter isEllipsisChar).isEmpty = true
  · simp only [ellipsisPass, hf, if_true, he]
    exact noneOf_of_filter_isEmpty he
  · simp only [ellipsisPass, hf, if_true, he, Bool.false_eq_true, if_false]
    intro c hc
    rcases List.mem_flatMap.1 hc with ⟨a, ha, hmem⟩
    by_cases hd : isEllipsisChar a = true
    · rw [if_pos hd] at hmem
      have h46 : c = 46 := by simpa using hmem
      subst h46
      decide
    · rw [if_neg hd] at hmem
      simp only [List.mem_singleton] at hmem
      subst hmem
      simpa using hd

theorem invisiblePass_noInvisible {s : Settings} (t : JStr) (hf : s.fixInvisibleChars = true) :
    NoneOf isInvisibleChar (invisiblePass s t).1 := by
  by_cases he : (t.filter isInvisibleChar).isEmpty = true
  · simp only [invisiblePass, hf, if_true, he]
    exact noneOf_of_filter_isEmpty he
  · simp only [invisiblePass, hf, if_true, he, Bool.false_eq_true, if_false]
    intro c hc
    rcases List.mem_map.1 hc with ⟨a, _, hab⟩
    subst hab
    by_cases hd : isInvisibleChar a = true
    · rw [if_pos hd]; decide
    · rw [if_neg hd]; simpa using hd

theorem accentValues_unmapped : ∀ v ∈ accentValues, accClass v = false := by decide

theorem accentsPass_noMapped {s : Settings} (t : JStr) (hf : s.fixAccents = true) :
    NoneOf accClass (accentsPass s t).1 := by
  simp only [accentsPass, hf, if_true]
  intro c hc
  rcases List.mem_map.1 hc with ⟨a, _, hab⟩
  subst hab
  by_cases hr : isLatin1SupChar a = true
  · rcases hm : accentMap a with _ | v
    · simp [hr, hm, accClass]
    · simp only [hr, if_true, hm, Option.getD_some]
      exact accentValues_unmapped v (accentMap_mem_values hm)
  · simp [hr, accClass]

theorem emDashPass_id {s : Settings} {t : JStr}
    (h : s.fixEmDash = true → NoneOf isEmDashChar t) : (emDashPass s t).1 = t := by
  by_cases hf : s.fixEmDash = true
  · have he : (t.filter isEmDashChar).isEmpty = true := by
      rw [List.isEmpty_iff, List.filter_eq_nil_iff]
      intro a ha
      simp [h hf a ha]
    simp [emDashPass, hf, he]
  · simp [emDashPass, hf]

theorem curlyPass_id {s : Settings} {t : JStr}
    (h : s.fixCurlyQuotes = true → NoneOf isCurlyQuoteChar t) : (curlyPass s t).1 = t := by
  by_cases hf : s.fixCurlyQuotes = true
  · have he : (t.filter isCurlyQuoteChar).isEmpty = true := by
      rw [List.isEmpty_iff, List.filter_eq_nil_iff]
      intro a ha
      simp [h hf a ha]
    simp [curlyPass, hf, he]
  · simp [curlyPass, hf]

theorem ellipsisPass_id {s : Settings} {t : JStr}
    (h : s.fixEllipsis = true → NoneOf isEllipsisChar t) : (ellipsisPass s t).1 = t := by
  by_cases hf : s.fixEllipsis = true
  · have he : (t.filter isEllipsisChar).isEmpty = true := by
      rw [List.isEmpty_iff, List.filter_eq_nil_iff]
      intro a ha
      simp [h hf a ha]
    simp [ellipsisPass, hf, he]
  · simp [ellipsisPass, hf]

theorem invisiblePass_id {s : Settings} {t : JStr}
    (h : s.fixInvisibleChars = true → NoneOf isInvisibleChar t) : (invisiblePass s t).1 = t := by
  by_cases hf : s.fixInvisibleChars = true
  · have he : (t.filter isInvisibleChar).isEmpty = true := by
      rw [List.isEmpty_iff, List.filter_eq_nil_iff]
      intro a ha
      simp [h hf a ha]
    simp [invisiblePass, hf, he]
  · simp [invisiblePass, hf]

theorem accentsPass_id {s : Settings} {t : JStr}
    (h : s.fixAccents = true → NoneOf accClass t) : (accentsPass s t).1 = t := by
  by_cases hf : s.fixAccents = true
  · simp only [accentsPass, hf, if_true]
    have hmap : ∀ c ∈ t, (if isLatin1SupChar c then (accentMap c).getD c else c) = c := by
      intro c hc
      by_cases hr : isLatin1SupChar c = true
      · have hcl := h hf c hc
        simp only [accClass, hr, Bool.true_and] at hcl
        rw [if_pos hr]
        rcases hm : accentMap c with _ | v
        · simp
        · rw [hm] at hcl; simp at hcl
      · rw [if_neg hr]
    calc t.map (fun c => if isLatin1SupChar c then (accentMap c).getD c else c)
        = t.map id := List.map_congr_left hmap
      _ = t := List.map_id t
  · simp [accentsPass, hf]

/-- Head of a text, when present, is not whitespace. -/
def HeadNotWs : JStr → Prop
  | [] => True
  | c :: _ => isJsWhitespace c = false

/-- Fixed points of the collapse-and-rewrite: every whitespace character is
a plain space and no two whitespace characters are adjacent. -/
def WsNormal (t : JStr) : Prop :=
  (∀ c ∈ t, isJsWhitespace c = true → c = 32) ∧ hasDoubleWs t = false

theorem hasDoubleWs_tail {c : Nat} {r : JStr} (h : hasDoubleWs (c :: r) = false) :
    hasDoubleWs r = false := by
  cases r with
  | nil => rfl
  | cons d l =>
    simp only [hasDoubleWs, Bool.or_eq_false_iff] at h
    exact h.2

theorem hasDoubleWs_cons_false {c : Nat} {r : JStr} (h1 : hasDoubleWs r = false)
    (h2 : ∀ d, r.head? = some d → (isJsWhitespace c && isJsWhitespace d) = false) :
    hasDoubleWs (c :: r) = false := by
  cases r with
  | nil => rfl
  | cons d l =>
    simp only [hasDoubleWs, Bool.or_eq_false_iff]
    exact ⟨h2 d rfl, h1⟩

theorem collapseWsAux_wsNormal (t : JStr) :
    (WsNormal (collapseWsAux false t) ∧ WsNormal (collapseWsAux true t)) ∧
      HeadNotWs (collapseWsAux true t) := by
  induction t with
  | nil =>
    refine ⟨⟨⟨?_, rfl⟩, ⟨?_, rfl⟩⟩, trivial⟩ <;> intro c hc <;> simp [collapseWsAux] at hc
  | cons a r ih =>
    obtain ⟨⟨⟨m0, d0⟩, ⟨m1, d1⟩⟩, hHead⟩ := ih
    by_cases hw : isJsWhitespace a = true
    · have hcons : collapseWsAux false (a :: r) = 32 :: collapseWsAux true r := by
        simp [collapseWsAux, hw]
      have htrue : collapseWsAux true (a :: r) = collapseWsAux true r := by
        simp [collapseWsAux, hw]
      refine ⟨⟨?_, ?_⟩, ?_⟩
      · rw [hcons]
        refine ⟨?_, ?_⟩
        · intro c hc hwc
          rcases List.mem_cons.1 hc with rfl | hc
          · rfl
          · exact m1 c hc hwc
        · apply hasDoubleWs_cons_false d1
          intro d hd
          cases haux : collapseWsAux true r with
          | nil => rw [haux] at hd; cases hd
          | cons x w =>
            rw [haux] at hd
            simp only [List.head?_cons, Option.some_inj] at hd
            subst hd
            rw [haux] at hHead
            simp only [HeadNotWs] at hHead
            simp [hHead]
      · rw [htrue]; exact ⟨m1, d1⟩
      · rw [htrue]; exact hHead
    · have hfalse : collapseWsAux false (a :: r) = a :: collapseWsAux false r := by
        simp [collapseWsAux, hw]
      have htrue : collapseWsAux true (a :: r) = a :: collapseWsAux false r := by
        simp [collapseWsAux, hw]
      have hn : WsNormal (a :: collapseWsAux false r) := by
        refine ⟨?_, ?_⟩
        · intro c hc hwc
          rcases List.mem_cons.1 hc with rfl | hc
          · exact absurd hwc (by simpa using hw)
          · exact m0 c hc hwc
        · apply hasDoubleWs_cons_false d0
          intro d _
          have hwa : isJsWhitespace a = false := by simpa using hw
          simp [hwa]
      refine ⟨⟨?_, ?_⟩, ?_⟩
      · rw [hfalse]; exact hn
      · rw [htrue]; exact hn
      · rw [htrue]
        simp only [HeadNotWs]
        simpa using hw

theorem collapseWsAux_eq_self : ∀ t : JStr, WsNormal t →
    collapseWsAux false t = t ∧ (HeadNotWs t → collapseWsAux true t = t) := by
  intro t
  induction t with
  | nil => intro _; exact ⟨rfl, fun _ => rfl⟩
  | cons a r ih =>
    intro h
    have hr : WsNormal r :=
      ⟨fun c hc hwc => h.1 c (List.mem_cons_of_mem _ hc) hwc, hasDoubleWs_tail h.2⟩
    by_cases hw : isJsWhitespace a = true
    · have ha32 : a = 32 := h.1 a (List.mem_cons_self _ _) hw
      have hHr : HeadNotWs r := by
        cases r with
        | nil => trivial
        | cons d l =>
          have h3 : (isJsWhitespace a && isJsWhitespace d) = false := by
            have h4 := h.2
            simp only [hasDoubleWs, Bool.or_eq_false_iff] at h4
            exact h4.1
          rw [hw] at h3
          simp only [HeadNotWs]
          simpa using h3
      constructor
      · show collapseWsAux false (a :: r) = a :: r
        simp only [collapseWsAux, hw, if_true]
        rw [(ih hr).2 hHr, ha32]
        simp
      · intro hH
        simp only [HeadNotWs] at hH
        rw [hw] at hH
        cases hH
    · constructor
      · show collapseWsAux false (a :: r) = a :: r
        simp only [collapseWsAux, hw, Bool.false_eq_true, if_false]
        rw [(ih hr).1]
      · intro _
        show collapseWsAux true (a :: r) = a :: r
        simp only [collapseWsAux, hw, Bool.false_eq_true, if_false]
        rw [(ih hr).1]

theorem hasDoubleWs_dropWhile (p : Nat → Bool) :
    ∀ t : JStr, hasDoubleWs t = false → hasDoubleWs (t.dropWhile p) = false := by
  intro t
  induction t with
  | nil => intro h; simpa using h
  | cons a r ih =>
    intro h
    rw [List.dropWhile_cons]
    by_cases hp : p a = true
    · rw [if_pos hp]
      exact ih (hasDoubleWs_tail h)
    · rw [if_neg hp]
      exact h

theorem dropTrailingWs_cases (a : Nat) (r : JStr) :
    dropTrailingWs (a :: r) = [] ∨ dropTrailingWs (a :: r) = a :: dropTrailingWs r := by
  by_cases h : ((dropTrailingWs r).isEmpty && isJsWhitespace a) = true
  · left; simp [dropTrailingWs, h]
  · right; simp [dropTrailingWs, h]

theorem hasDoubleWs_dropTrailingWs :
    ∀ t : JStr, hasDoubleWs t = false → hasDoubleWs (dropTrailingWs t) = false := by
  intro t
  induction t with
  | nil => intro h; simpa using h
  | cons a r ih =>
    intro h
    rcases dropTrailingWs_cases a r with hcase | hcase
    · rw [hcase]; rfl
    · rw [hcase]
      apply hasDoubleWs_cons_false (ih (hasDoubleWs_tail h))
      intro d hd
      cases r with
      | nil => simp [dropTrailingWs] at hd
      | cons e l =>
        rcases dropTrailingWs_cases e l with h2 | h2
        · rw [h2] at hd; cases hd
        · rw [h2] at hd
          simp only [List.head?_cons, Option.some_inj] at hd
          subst hd
          simp only [hasDoubleWs, Bool.or_eq_false_iff] at h
          exact h.1

theorem wsNormal_trimWs {t : JStr} (h : WsNormal t) : WsNormal (trimWs t) := by
  refine ⟨?_, ?_⟩
  · intro c hc hwc
    exact h.1 c (mem_trimWs t c hc) hwc
  · unfold trimWs
    exact hasDoubleWs_dropTrailingWs _ (hasDoubleWs_dropWhile _ _ h.2)

theorem collapseWs_wsNormal (t : JStr) : WsNormal (collapseWs t) :=
  ((collapseWsAux_wsNormal t).1).1

theorem collapseWs_eq_self {t : JStr} (h : WsNormal t) : collapseWs t = t :=
  (collapseWsAux_eq_self t h).1

theorem spacesPass_id_of_wsNormal {s : Settings} {t : JStr} (h : WsNormal t) :
    (spacesPass s t).1 = t := by
  by_cases hf : s.fixSpaces = true
  · rw [spacesPass_eq s t hf]
    have hcond : ¬(0 < wsRunCount t ∧ trimWs (collapseWs t) ≠ trimWs t) := by
      intro hcond
      exact hcond.2 (by rw [collapseWs_eq_self h])
    rw [if_neg hcond]
  · simp [spacesPass, hf]

theorem spacesPass_idem (s : Settings) (t : JStr) :
    (spacesPass s (spacesPass s t).1).1 = (spacesPass s t).1 := by
  by_cases hf : s.fixSpaces = true
  · by_cases hcond : 0 < wsRunCount t ∧ trimWs (collapseWs t) ≠ trimWs t
    · rw [spacesPass_eq s t hf, if_pos hcond]
      exact spacesPass_id_of_wsNormal (wsNormal_trimWs (collapseWs_wsNormal t))
    · rw [spacesPass_eq s t hf, if_neg hcond]
      show (spacesPass s t).1 = t
      rw [spacesPass_eq s t hf, if_neg hcond]
  · simp [spacesPass, hf]

theorem noneOf_of_any_false {p : Nat → Bool} {t : JStr} (h : t.any p = false) :
    NoneOf p t := by
  intro c hc
  by_contra hcc
  have h2 : t.any p = true := List.any_eq_true.2 ⟨c, hc, by simpa using hcc⟩
  rw [h2] at h
  cases h

/-- C1 (amended): for every Settings snapshot whose dash category is
disabled or whose replacement string contains neither an em/en dash
character nor a dollar sign (so no replacement pattern of the host's
replace can re-introduce a dash), and for every input string, applying
the transform pipeline twice yields the same normalized text as applying
it once. -/
theorem c1_transform_idempotent_for_dashfree_replacer (s : Settings) (t : JStr)
    (h : s.fixEmDash = false ∨
      (NoneOf isEmDashChar s.replacer ∧ NoneOf isDollarChar s.replacer)) :
    (applyTextFixes s (applyTextFixes s t).1).1 = (applyTextFixes s t).1 := by
  have hrep : s.fixEmDash = true →
      NoneOf isEmDashChar s.replacer ∧ NoneOf isDollarChar s.replacer := by
    intro hf
    rcases h with h | h
    · rw [hf] at h; cases h
    · exact h
  set w1 := (emDashPass s t).1 with hw1
  set w2 := (curlyPass s w1).1 with hw2
  set w3 := (ellipsisPass s w2).1 with hw3
  set w4 := (invisiblePass s w3).1 with hw4
  set w5 := (accentsPass s w4).1 with hw5
  set u := (spacesPass s w5).1 with hu
  have hfirst : (applyTextFixes s t).1 = u := rfl
  rw [hfirst]
  have F1 : s.fixEmDash = true → NoneOf isEmDashChar u := by
    intro hf
    have n1 : NoneOf isEmDashChar w1 :=
      emDashPass_noDash t hf (hrep hf).1 (hrep hf).2
    have n2 : NoneOf isEmDashChar w2 :=
      NoneOf.of_mem [34, 39] (mem_curlyPass s w1) n1 (by decide)
    have n3 : NoneOf isEmDashChar w3 :=
      NoneOf.of_mem [46] (mem_ellipsisPass s w2) n2 (by decide)
    have n4 : NoneOf isEmDashChar w4 :=
      NoneOf.of_mem [32] (mem_invisiblePass s w3) n3 (by decide)
    have n5 : NoneOf isEmDashChar w5 :=
      NoneOf.of_mem accentValues (mem_accentsPass s w4) n4 (by decide)
    exact NoneOf.of_mem [32] (mem_spacesPass s w5) n5 (by decide)
  have F2 : s.fixCurlyQuotes = true → NoneOf isCurlyQuoteChar u := by
    intro hf
    have n2 : NoneOf isCurlyQuoteChar w2 := curlyPass_noCurly w1 hf
    have n3 : NoneOf isCurlyQuoteChar w3 :=
      NoneOf.of_mem [46] (mem_ellipsisPass s w2) n2 (by decide)
    have n4 : NoneOf isCurlyQuoteChar w4 :=
      NoneOf.of_mem [32] (mem_invisiblePass s w3) n3 (by decide)
    have n5 : NoneOf isCurlyQuoteChar w5 :=
      NoneOf.of_mem accentValues (mem_accentsPass s w4) n4 (by decide)
    exact NoneOf.of_mem [32] (mem_spacesPass s w5) n5 (by decide)
  have F3 : s.fixEllipsis = true → NoneOf isEllipsisChar u := by
    intro hf
    have n3 : NoneOf isEllipsisChar w3 := ellipsisPass_noEllipsis w2 hf
    have n4 : NoneOf isEllipsisChar w4 :=
      NoneOf.of_mem [32] (mem_invisiblePass s w3) n3 (by decide)
    have n5 : NoneOf isEllipsisChar w5 :=
      NoneOf.of_mem accentValues (mem_accentsPass s w4) n4 (by decide)
    exact NoneOf.of_mem [32] (mem_spacesPass s w5) n5 (by decide)
  have F4 : s.fixInvisibleChars = true → NoneOf isInvisibleChar u := by
    intro hf
    have n4 : NoneOf isInvisibleChar w4 := invisiblePass_noInvisible w3 hf
    have n5 : NoneOf isInvisibleChar w5 :=
      NoneOf.of_mem accentValues (mem_accentsPass s w4) n4 (by decide)
    exact NoneOf.of_mem [32] (mem_spacesPass s w5) n5 (by decide)
  have F5 : s.fixAccents = true → NoneOf accClass u := by
    intro hf
    have n5 : NoneOf accClass w5 := accentsPass_noMapped w4 hf
    exact NoneOf.of_mem [32] (mem_spacesPass s w5) n5 (by decide)
  show (spacesPass s (accentsPass s (invisiblePass s (ellipsisPass s
      (curlyPass s (emDashPass s u).1).1).1).1).1).1 = u
  rw [emDashPass_id F1, curlyPass_id F2, ellipsisPass_id F3, invisiblePass_id F4,
    accentsPass_id F5]
  rw [hu]
  exact spacesPass_idem s w5

/-- C1 counterexample: two configured replacement strings of at most 10
characters on which the transform is not idempotent.  With the length-2
replacer (lowercase a, em dash), one application to the single en dash
gives (a, em dash) and two give (a, a, em dash).  With the length-2
replacer (dollar, backtick) — which contains no dash at all — the
dollar-backtick pattern re-inserts the portion before each match, so
(em dash, a, em dash) becomes (a, em dash, a) after one application and
(a, a, a) after two. -/
theorem c1_replacer_with_dash_not_idempotent :
    ((⟨[97, 0x2014], true, false, false, false, false, false⟩ : Settings).replacer.length ≤ 10 ∧
      (applyTextFixes (⟨[97, 0x2014], true, false, false, false, false, false⟩ : Settings)
          (applyTextFixes (⟨[97, 0x2014], true, false, false, false, false, false⟩ : Settings)
            [0x2013]).1).1 ≠
        (applyTextFixes (⟨[97, 0x2014], true, false, false, false, false, false⟩ : Settings)
          [0x2013]).1) ∧
    ((⟨[36, 96], true, false, false, false, false, false⟩ : Settings).replacer.length ≤ 10 ∧
      (∀ c ∈ ([36, 96] : JStr), isEmDashChar c = false) ∧
      (applyTextFixes (⟨[36, 96], true, false, false, false, false, false⟩ : Settings)
        [0x2014, 97, 0x2014]).1 = [97, 0x2014, 97] ∧
      (applyTextFixes (⟨[36, 96], true, false, false, false, false, false⟩ : Settings)
          (applyTextFixes (⟨[36, 96], true, false, false, false, false, false⟩ : Settings)
            [0x2014, 97, 0x2014]).1).1 ≠
        (applyTextFixes (⟨[36, 96], true, false, false, false, false, false⟩ : Settings)
          [0x2014, 97, 0x2014]).1) := by
  decide

/-- Witness for the amended C1 theorem: default settings (hyphen replacer,
every category on) on a text containing a dash, doubled spaces, curly
quotes, an accent, an ellipsis and a non-breaking space. -/
theorem c1_witness :
    ((⟨[45], true, true, true, true, true, true⟩ : Settings).fixEmDash = false ∨
      (NoneOf isEmDashChar (⟨[45], true, true, true, true, true, true⟩ : Settings).replacer ∧
        NoneOf isDollarChar (⟨[45], true, true, true, true, true, true⟩ : Settings).replacer)) ∧
    (applyTextFixes (⟨[45], true, true, true, true, true, true⟩ : Settings)
        (applyTextFixes (⟨[45], true, true, true, true, true, true⟩ : Settings)
          [0x2014, 32, 32, 0x201C, 0xE9, 0x201D, 0x2026, 0xA0]).1).1 =
      (applyTextFixes (⟨[45], true, true, true, true, true, true⟩ : Settings)
        [0x2014, 32, 32, 0x201C, 0xE9, 0x201D, 0x2026, 0xA0]).1 :=
  ⟨Or.inr ⟨by intro c hc; simp at hc; subst hc; decide,
      by intro c hc; simp at hc; subst hc; decide⟩,
    c1_transform_idempotent_for_dashfree_replacer
      (⟨[45], true, true, true, true, true, true⟩ : Settings)
      [0x2014, 32, 32, 0x201C, 0xE9, 0x201D, 0x2026, 0xA0]
      (Or.inr ⟨by intro c hc; simp at hc; subst hc; decide,
        by intro c hc; simp at hc; subst hc; decide⟩)⟩

/-- C3 counterexample: with every default category enabled, the pre-check
reports the text (a, tab, b) as needing no processing, yet the full
transform rewrites it to (a, space, b). -/
theorem c3_precheck_misses_single_tab :
    needsProcessing (⟨[45], true, true, true, true, false, true⟩ : Settings) [97, 9, 98] = false ∧
    (applyTextFixes (⟨[45], true, true, true, true, false, true⟩ : Settings) [97, 9, 98]).1 ≠
      [97, 9, 98] := by
  decide

/-- C3 (amended): the pre-check is consistent with the transform for the
five character-class categories; whenever space normalization is disabled,
a false pre-check implies the transform leaves the text unchanged. -/
theorem c3_precheck_consistent_without_spaces (s : Settings) (t : JStr)
    (hsp : s.fixSpaces = false) (h : needsProcessing s t = false) :
    (applyTextFixes s t).1 = t := by
  have hshow : (applyTextFixes s t).1 = (spacesPass s (accentsPass s (invisiblePass s
      (ellipsisPass s (curlyPass s (emDashPass s t).1).1).1).1).1).1 := rfl
  by_cases hemp : t.isEmpty = true
  · have ht : t = [] := List.isEmpty_iff.1 hemp
    subst ht
    have g : ∀ p : Nat → Bool, NoneOf p ([] : JStr) := fun p c hc => absurd hc (List.not_mem_nil c)
    rw [hshow, emDashPass_id (fun _ => g _), curlyPass_id (fun _ => g _),
      ellipsisPass_id (fun _ => g _), invisiblePass_id (fun _ => g _),
      accentsPass_id (fun _ => g _)]
    simp [spacesPass, hsp]
  · have hdisj : ((s.fixEmDash && t.any isEmDashChar) ||
        (s.fixCurlyQuotes && t.any isCurlyQuoteChar) ||
        (s.fixEllipsis && t.any isEllipsisChar) ||
        (s.fixInvisibleChars && t.any isInvisibleChar) ||
        (s.fixAccents && t.any isLatin1SupChar) ||
        (s.fixSpaces && hasDoubleWs t)) = false := by
      unfold needsProcessing at h
      rwa [if_neg hemp] at h
    simp only [Bool.or_eq_false_iff] at hdisj
    obtain ⟨⟨⟨⟨⟨h1, h2⟩, h3⟩, h4⟩, h5⟩, _⟩ := hdisj
    have g1 : s.fixEmDash = true → NoneOf isEmDashChar t := by
      intro hf; rw [hf] at h1
      exact noneOf_of_any_false (by simpa using h1)
    have g2 : s.fixCurlyQuotes = true → NoneOf isCurlyQuoteChar t := by
      intro hf; rw [hf] at h2
      exact noneOf_of_any_false (by simpa using h2)
    have g3 : s.fixEllipsis = true → NoneOf isEllipsisChar t := by
      intro hf; rw [hf] at h3
      exact noneOf_of_any_false (by simpa using h3)
    have g4 : s.fixInvisibleChars = true → NoneOf isInvisibleChar t := by
      intro hf; rw [hf] at h4
      exact noneOf_of_any_false (by simpa using h4)
    have g5 : s.fixAccents = true → NoneOf accClass t := by
      intro hf; rw [hf] at h5
      have g5a : NoneOf isLatin1SupChar t := noneOf_of_any_false (by simpa using h5)
      intro c hc
      simp [accClass, g5a c hc]
    rw [hshow, emDashPass_id g1, curlyPass_id g2, ellipsisPass_id g3, invisiblePass_id g4,
      accentsPass_id g5]
    simp [spacesPass, hsp]

/-- Witness for the amended C3 theorem: spaces disabled, plain text passes
the pre-check as clean and is indeed returned unchanged. -/
theorem c3_witness :
    (⟨[45], true, true, true, true, false, false⟩ : Settings).fixSpaces = false ∧
    needsProcessing (⟨[45], true, true, true, true, false, false⟩ : Settings) [104, 9, 105] = false ∧
    (applyTextFixes (⟨[45], true, true, true, true, false, false⟩ : Settings) [104, 9, 105]).1 =
      [104, 9, 105] :=
  ⟨rfl, by decide,
    c3_precheck_consistent_without_spaces
      (⟨[45], true, true, true, true, false, false⟩ : Settings) [104, 9, 105] rfl (by decide)⟩

/-- C5 counterexample: on the spec's example input (curly quotes, ellipsis
and space normalization enabled), the spaces counter is not 1: the code
counts every whitespace run of the text (two runs here). -/
theorem c5_spaces_count_not_one :
    (applyTextFixes (⟨[45], false, true, true, false, false, true⟩ : Settings)
      [0x201C, 81, 117, 111, 116, 101, 100, 0x201D, 32, 116, 101, 120, 116,
       0x2026, 32, 32, 32, 104, 101, 114, 101]).2.spaces ≠ 1 := by
  decide

/-- C5 (amended): the example input normalizes to the expected text with
counts curlyQuotes 2, ellipsis 1 and spaces 2 (the number of whitespace
runs, including the already-single space). -/
theorem c5_example_counts :
    applyTextFixes (⟨[45], false, true, true, false, false, true⟩ : Settings)
      [0x201C, 81, 117, 111, 116, 101, 100, 0x201D, 32, 116, 101, 120, 116,
       0x2026, 32, 32, 32, 104, 101, 114, 101] =
    ([34, 81, 117, 111, 116, 101, 100, 34, 32, 116, 101, 120, 116, 46, 46, 46,
      32, 104, 101, 114, 101], ⟨0, 2, 1, 0, 0, 2⟩) := by
  decide

/-- Raw values read from the settings store by `loadSettings`; `none`
models an absent key. -/
structure StoredData where
  replacer : Option JStr
  fixEmDash : Option Bool
  fixCurlyQuotes : Option Bool
  fixEllipsis : Option Bool
  fixInvisibleChars : Option Bool
  fixAccents : Option Bool
  fixSpaces : Option Bool
deriving Repr, DecidableEq

/-- The content script's `loadSettings`: `data.replacer` is defaulted with
a falsy-or (so both an absent key and the empty string fall back to the
hyphen), the first four category flags and the spaces flag default to true
(`!== false`), and accent stripping defaults to false (`=== true`). -/
def loadSettings (d : StoredData) : Settings :=
  { replacer :=
      match d.replacer with
      | none => [45]
      | some r => if r.isEmpty then [45] else r
    fixEmDash :=
      match d.fixEmDash with
      | some false => false
      | _ => true
    fixCurlyQuotes :=
      match d.fixCurlyQuotes with
      | some false => false
      | _ => true
    fixEllipsis :=
      match d.fixEllipsis with
      | some false => false
      | _ => true
    fixInvisibleChars :=
      match d.fixInvisibleChars with
      | some false => false
      | _ => true
    fixAccents :=
      match d.fixAccents with
      | some true => true
      | _ => false
    fixSpaces :=
      match d.fixSpaces with
      | some false => false
      | _ => true }

/-- C6 counterexample: a configured empty replacement string is coerced to
the default hyphen by the loader, so an em dash is not deleted but becomes
a hyphen. -/
theorem c6_empty_replacer_coerced_to_hyphen :
    (loadSettings ⟨some [], none, none, none, none, none, none⟩).replacer = [45] ∧
    (applyTextFixes (loadSettings ⟨some [], none, none, none, none, none, none⟩)
      [0x2014]).1 ≠ [] ∧
    (applyTextFixes (loadSettings ⟨some [], none, none, none, none, none, none⟩)
      [0x2014]).1 = [45] := by
  decide

/-- C6 (amended): with dash normalization enabled and the configured
replacement string empty, the loader substitutes the hyphen and every em
dash (U+2014) and en dash (U+2013) is replaced by a hyphen rather than
deleted. -/
theorem c6_empty_replacer_dashes_become_hyphen (d : StoredData)
    (h1 : d.replacer = some []) (h2 : (loadSettings d).fixEmDash = true) :
    (loadSettings d).replacer = [45] ∧
    (applyTextFixes (loadSettings d) [0x2014]).1 = [45] ∧
    (applyTextFixes (loadSettings d) [0x2013]).1 = [45] := by
  have hrep : (loadSettings d).replacer = [45] := by
    simp [loadSettings, h1]
  have hpipe : ∀ t : JStr, (emDashPass (loadSettings d) t).1 = [45] →
      (applyTextFixes (loadSettings d) t).1 = [45] := by
    intro t hdash
    have hshow : (applyTextFixes (loadSettings d) t).1 =
        (spacesPass (loadSettings d) (accentsPass (loadSettings d) (invisiblePass (loadSettings d)
          (ellipsisPass (loadSettings d) (curlyPass (loadSettings d)
            (emDashPass (loadSettings d) t).1).1).1).1).1).1 := rfl
    rw [hshow, hdash,
      curlyPass_id (fun _ => by intro c hc; simp at hc; subst hc; decide),
      ellipsisPass_id (fun _ => by intro c hc; simp at hc; subst hc; decide),
      invisiblePass_id (fun _ => by intro c hc; simp at hc; subst hc; decide),
      accentsPass_id (fun _ => by intro c hc; simp at hc; subst hc; decide)]
    exact spacesPass_id_of_wsNormal (by constructor <;> decide)
  refine ⟨hrep, hpipe [0x2014] ?_, hpipe [0x2013] ?_⟩
  · simp [emDashPass, h2, isEmDashChar, hrep, replaceDashes, replaceDashesAux,
      getSubstitution]
  · simp [emDashPass, h2, isEmDashChar, hrep, replaceDashes, replaceDashesAux,
      getSubstitution]

/-- Witness for the amended C6 theorem at a store holding the empty
replacement string and no category keys. -/
theorem c6_witness :
    (⟨some [], none, none, none, none, none, none⟩ : StoredData).replacer = some [] ∧
    (loadSettings ⟨some [], none, none, none, none, none, none⟩).fixEmDash = true ∧
    (loadSettings ⟨some [], none, none, none, none, none, none⟩).replacer = [45] ∧
    (applyTextFixes (loadSettings ⟨some [], none, none, none, none, none, none⟩)
      [0x2014]).1 = [45] ∧
    (applyTextFixes (loadSettings ⟨some [], none, none, none, none, none, none⟩)
      [0x2013]).1 = [45] := by
  have h := c6_empty_replacer_dashes_become_hyphen
    ⟨some [], none, none, none, none, none, none⟩ rfl rfl
  exact ⟨rfl, rfl, h.1, h.2.1, h.2.2⟩

/-- A text node of the scanned tree: a stable identity, its current text
payload, and whether the tree-walker filter excludes it because its parent
is a script/style/noscript container or an editable region. -/
structure TNode where
  id : Nat
  text : JStr
  excluded : Bool
deriving Repr, DecidableEq

/-- Sum of the per-category counters, as computed by
`Object.values(fixCounts).reduce((sum, count) => sum + count, 0)`. -/
def sumFixCounts (fc : FixCounts) : Nat :=
  fc.emDash + fc.curlyQuotes + fc.ellipsis + fc.invisibleChars + fc.accents + fc.spaces

/-- A history record pushed by `replaceInRoot` for a changed node
(timestamp and url are environment values and are not modelled). -/
structure HistoryEntry where
  before : JStr
  after : JStr
  fixCounts : FixCounts
  totalFixes : Nat
deriving Repr, DecidableEq

/-- Result of one `replaceInRoot` traversal: the rewritten node list, the
updated processed set (node identities), the history entries pushed in
walk order, and the total number of replacements. -/
structure ScanResult where
  nodes : List TNode
  processed : List Nat
  history : List HistoryEntry
  total : Nat
deriving Repr, DecidableEq

/-- The tree scanner `replaceInRoot(root, localHistory)`: walks the text
nodes in document order; the walker filter skips nodes already in the
processed set, nodes whose text needs no processing, and nodes under
excluded parents; an accepted node is transformed and, when the output
differs, rewritten, marked processed, recorded in the history, and its
total fix count added to the return value. -/
def replaceInRoot (s : Settings) : List TNode → List Nat → ScanResult
  | [], ps => ⟨[], ps, [], 0⟩
  | n :: rest, ps =>
    if n.id ∈ ps then
      let r := replaceInRoot s rest ps
      { r with nodes := n :: r.nodes }
    else if needsProcessing s n.text = false then
      let r := replaceInRoot s rest ps
      { r with nodes := n :: r.nodes }
    else if n.excluded then
      let r := replaceInRoot s rest ps
      { r with nodes := n :: r.nodes }
    else
      let f := applyTextFixes s n.text
      if f.1 ≠ n.text then
        let r := replaceInRoot s rest (n.id :: ps)
        { nodes := { n with text := f.1 } :: r.nodes
          processed := r.processed
          history := ⟨n.text, f.1, f.2, sumFixCounts f.2⟩ :: r.history
          total := sumFixCounts f.2 + r.total }
      else
        let r := replaceInRoot s rest ps
        { r with nodes := n :: r.nodes }

theorem replaceInRoot_nil (s : Settings) (ps : List Nat) :
    replaceInRoot s [] ps = ⟨[], ps, [], 0⟩ := rfl

theorem replaceInRoot_skip_processed {s : Settings} {n : TNode} {rest : List TNode}
    {ps : List Nat} (h : n.id ∈ ps) :
    replaceInRoot s (n :: rest) ps =
      ⟨n :: (replaceInRoot s rest ps).nodes, (replaceInRoot s rest ps).processed,
        (replaceInRoot s rest ps).history, (replaceInRoot s rest ps).total⟩ := by
  simp [replaceInRoot, h]

theorem replaceInRoot_skip_needs {s : Settings} {n : TNode} {rest : List TNode}
    {ps : List Nat} (h1 : n.id ∉ ps) (h2 : needsProcessing s n.text = false) :
    replaceInRoot s (n :: rest) ps =
      ⟨n :: (replaceInRoot s rest ps).nodes, (replaceInRoot s rest ps).processed,
        (replaceInRoot s rest ps).history, (replaceInRoot s rest ps).total⟩ := by
  simp [replaceInRoot, h1, h2]

theorem replaceInRoot_skip_excluded {s : Settings} {n : TNode} {rest : List TNode}
    {ps : List Nat} (h1 : n.id ∉ ps) (h2 : needsProcessing s n.text = true)
    (h3 : n.excluded = true) :
    replaceInRoot s (n :: rest) ps =
      ⟨n :: (replaceInRoot s rest ps).nodes, (replaceInRoot s rest ps).processed,
        (replaceInRoot s rest ps).history, (replaceInRoot s rest ps).total⟩ := by
  simp [replaceInRoot, h1, h2, h3]

theorem replaceInRoot_unchanged {s : Settings} {n : TNode} {rest : List TNode}
    {ps : List Nat} (h1 : n.id ∉ ps) (h2 : needsProcessing s n.text = true)
    (h3 : n.excluded = false) (h4 : (applyTextFixes s n.text).1 = n.text) :
    replaceInRoot s (n :: rest) ps =
      ⟨n :: (replaceInRoot s rest ps).nodes, (replaceInRoot s rest ps).processed,
        (replaceInRoot s rest ps).history, (replaceInRoot s rest ps).total⟩ := by
  simp [replaceInRoot, h1, h2, h3, h4]

theorem replaceInRoot_changed {s : Settings} {n : TNode} {rest : List TNode}
    {ps : List Nat} (h1 : n.id ∉ ps) (h2 : needsProcessing s n.text = true)
    (h3 : n.excluded = false) (h4 : (applyTextFixes s n.text).1 ≠ n.text) :
    replaceInRoot s (n :: rest) ps =
      ⟨{ n with text := (applyTextFixes s n.text).1 } ::
          (replaceInRoot s rest (n.id :: ps)).nodes,
        (replaceInRoot s rest (n.id :: ps)).processed,
        ⟨n.text, (applyTextFixes s n.text).1, (applyTextFixes s n.text).2,
          sumFixCounts (applyTextFixes s n.text).2⟩ ::
          (replaceInRoot s rest (n.id :: ps)).history,
        sumFixCounts (applyTextFixes s n.text).2 +
          (replaceInRoot s rest (n.id :: ps)).total⟩ := by
  simp [replaceInRoot, h1, h2, h3, h4]

theorem replaceInRoot_processed_subset (s : Settings) :
    ∀ (doc : List TNode) (ps : List Nat) (x : Nat),
      x ∈ ps → x ∈ (replaceInRoot s doc ps).processed := by
  intro doc
  induction doc with
  | nil => intro ps x hx; simpa [replaceInRoot] using hx
  | cons n rest ih =>
    intro ps x hx
    by_cases h1 : n.id ∈ ps
    · rw [replaceInRoot_skip_processed h1]
      exact ih ps x hx
    · by_cases h2 : needsProcessing s n.text = false
      · rw [replaceInRoot_skip_needs h1 h2]
        exact ih ps x hx
      · have h2t : needsProcessing s n.text = true := by
          cases h : needsProcessing s n.text
          · exact absurd h h2
          · rfl
        by_cases h3 : n.excluded = true
        · rw [replaceInRoot_skip_excluded h1 h2t h3]
          exact ih ps x hx
        · have h3f : n.excluded = false := by
            cases h : n.excluded
            · rfl
            · exact absurd h h3
          by_cases h4 : (applyTextFixes s n.text).1 = n.text
          · rw [replaceInRoot_unchanged h1 h2t h3f h4]
            exact ih ps x hx
          · rw [replaceInRoot_changed h1 h2t h3f h4]
            exact ih (n.id :: ps) x (List.mem_cons_of_mem _ hx)

theorem bool_true_of_not_false {b : Bool} (h : ¬b = false) : b = true := by
  cases b
  · exact absurd rfl h
  · rfl

theorem bool_false_of_not_true {b : Bool} (h : ¬b = true) : b = false := by
  cases b
  · rfl
  · exact absurd rfl h

/-- C9 (amended): re-scanning the nodes produced by a scan, with the
processed set that the scan returned, emits zero history entries and zero
replacements and leaves both the nodes and the processed set unchanged. -/
theorem c9_second_scan_no_entries (s : Settings) (doc : List TNode) (ps : List Nat) :
    replaceInRoot s (replaceInRoot s doc ps).nodes (replaceInRoot s doc ps).processed =
      ⟨(replaceInRoot s doc ps).nodes, (replaceInRoot s doc ps).processed, [], 0⟩ := by
  induction doc generalizing ps with
  | nil => simp [replaceInRoot]
  | cons n rest ih =>
    by_cases h1 : n.id ∈ ps
    · rw [replaceInRoot_skip_processed h1]
      dsimp only
      have hmem : n.id ∈ (replaceInRoot s rest ps).processed :=
        replaceInRoot_processed_subset s rest ps n.id h1
      rw [replaceInRoot_skip_processed hmem, ih ps]
    · by_cases h2 : needsProcessing s n.text = false
      · rw [replaceInRoot_skip_needs h1 h2]
        dsimp only
        by_cases hmem : n.id ∈ (replaceInRoot s rest ps).processed
        · rw [replaceInRoot_skip_processed hmem, ih ps]
        · rw [replaceInRoot_skip_needs hmem h2, ih ps]
      · have h2t : needsProcessing s n.text = true := bool_true_of_not_false h2
        by_cases h3 : n.excluded = true
        · rw [replaceInRoot_skip_excluded h1 h2t h3]
          dsimp only
          by_cases hmem : n.id ∈ (replaceInRoot s rest ps).processed
          · rw [replaceInRoot_skip_processed hmem, ih ps]
          · rw [replaceInRoot_skip_excluded hmem h2t h3, ih ps]
        · have h3f : n.excluded = false := bool_false_of_not_true h3
          by_cases h4 : (applyTextFixes s n.text).1 = n.text
          · rw [replaceInRoot_unchanged h1 h2t h3f h4]
            dsimp only
            by_cases hmem : n.id ∈ (replaceInRoot s rest ps).processed
            · rw [replaceInRoot_skip_processed hmem, ih ps]
            · rw [replaceInRoot_unchanged hmem h2t h3f h4, ih ps]
          · rw [replaceInRoot_changed h1 h2t h3f h4]
            dsimp only
            have hmem : (⟨n.id, (applyTextFixes s n.text).1, n.excluded⟩ : TNode).id ∈
                (replaceInRoot s rest (n.id :: ps)).processed :=
              replaceInRoot_processed_subset s rest (n.id :: ps) n.id
                (List.mem_cons_self _ _)
            rw [replaceInRoot_skip_processed hmem, ih (n.id :: ps)]

/-- C9 counterexample: the first scan of the single node (a, tab, b)
rewrites nothing (the pre-check skips it), yet that node's transform
output differs from its current content, refuting the claim's clause that
every non-rewritten node is transform-invariant. -/
theorem c9_skipped_node_transform_differs :
    (replaceInRoot (⟨[45], true, true, true, true, false, true⟩ : Settings)
        [⟨0, [97, 9, 98], false⟩] []).history = [] ∧
    (replaceInRoot (⟨[45], true, true, true, true, false, true⟩ : Settings)
        [⟨0, [97, 9, 98], false⟩] []).nodes = [⟨0, [97, 9, 98], false⟩] ∧
    (applyTextFixes (⟨[45], true, true, true, true, false, true⟩ : Settings)
        [97, 9, 98]).1 ≠ [97, 9, 98] := by
  decide

theorem emDashPass_count_zero {s : Settings} {t : JStr}
    (h : (emDashPass s t).2 = 0) : (emDashPass s t).1 = t := by
  by_cases hf : s.fixEmDash = true
  · by_cases he : (t.filter isEmDashChar).isEmpty = true
    · simp [emDashPass, hf, he]
    · exfalso
      simp only [emDashPass, hf, if_true, he, Bool.false_eq_true, if_false] at h
      rw [List.length_eq_zero] at h
      rw [List.isEmpty_iff] at he
      exact he h
  · simp [emDashPass, hf]

theorem curlyPass_count_zero {s : Settings} {t : JStr}
    (h : (curlyPass s t).2 = 0) : (curlyPass s t).1 = t := by
  by_cases hf : s.fixCurlyQuotes = true
  · by_cases he : (t.filter isCurlyQuoteChar).isEmpty = true
    · simp [curlyPass, hf, he]
    · exfalso
      simp only [curlyPass, hf, if_true, he, Bool.false_eq_true, if_false] at h
      rw [List.length_eq_zero] at h
      rw [List.isEmpty_iff] at he
      exact he h
  · simp [curlyPass, hf]

theorem ellipsisPass_count_zero {s : Settings} {t : JStr}
    (h : (ellipsisPass s t).2 = 0) : (ellipsisPass s t).1 = t := by
  by_cases hf : s.fixEllipsis = true
  · by_cases he : (t.filter isEllipsisChar).isEmpty = true
    · simp [ellipsisPass, hf, he]
    · exfalso
      simp only [ellipsisPass, hf, if_true, he, Bool.false_eq_true, if_false] at h
      rw [List.length_eq_zero] at h
      rw [List.isEmpty_iff] at he
      exact he h
  · simp [ellipsisPass, hf]

theorem invisiblePass_count_zero {s : Settings} {t : JStr}
    (h : (invisiblePass s t).2 = 0) : (invisiblePass s t).1 = t := by
  by_cases hf : s.fixInvisibleChars = true
  · by_cases he : (t.filter isInvisibleChar).isEmpty = true
    · simp [invisiblePass, hf, he]
    · exfalso
      simp only [invisiblePass, hf, if_true, he, Bool.false_eq_true, if_false] at h
      rw [List.length_eq_zero] at h
      rw [List.isEmpty_iff] at he
      exact he h
  · simp [invisiblePass, hf]

theorem accentsPass_count_zero {s : Settings} {t : JStr}
    (h : (accentsPass s t).2 = 0) : (accentsPass s t).1 = t := by
  by_cases hf : s.fixAccents = true
  · apply accentsPass_id
    intro _
    simp only [accentsPass, hf, if_true] at h
    rw [List.length_eq_zero, List.filter_eq_nil_iff] at h
    intro c hc
    have h2 := h c hc
    simpa [accClass] using h2
  · simp [accentsPass, hf]

theorem spacesPass_count_zero {s : Settings} {t : JStr}
    (h : (spacesPass s t).2 = 0) : (spacesPass s t).1 = t := by
  by_cases hf : s.fixSpaces = true
  · by_cases hcond : 0 < wsRunCount t ∧ trimWs (collapseWs t) ≠ trimWs t
    · exfalso
      rw [spacesPass_eq s t hf, if_pos hcond] at h
      have h2 := hcond.1
      simp only at h
      omega
    · rw [spacesPass_eq s t hf, if_neg hcond]
  · simp [spacesPass, hf]

theorem applyTextFixes_unchanged_of_counts_zero {s : Settings} {t : JStr}
    (h : sumFixCounts (applyTextFixes s t).2 = 0) : (applyTextFixes s t).1 = t := by
  set x1 := (emDashPass s t).1 with hx1
  set x2 := (curlyPass s x1).1 with hx2
  set x3 := (ellipsisPass s x2).1 with hx3
  set x4 := (invisiblePass s x3).1 with hx4
  set x5 := (accentsPass s x4).1 with hx5
  have hdec : sumFixCounts (applyTextFixes s t).2 =
      (emDashPass s t).2 + (curlyPass s x1).2 + (ellipsisPass s x2).2 +
      (invisiblePass s x3).2 + (accentsPass s x4).2 + (spacesPass s x5).2 := by
    simp [applyTextFixes, sumFixCounts]
  rw [hdec] at h
  have e1 : (emDashPass s t).2 = 0 := by omega
  have e2 : (curlyPass s x1).2 = 0 := by omega
  have e3 : (ellipsisPass s x2).2 = 0 := by omega
  have e4 : (invisiblePass s x3).2 = 0 := by omega
  have e5 : (accentsPass s x4).2 = 0 := by omega
  have e6 : (spacesPass s x5).2 = 0 := by omega
  have hfst : (applyTextFixes s t).1 = (spacesPass s x5).1 := rfl
  rw [hfst, spacesPass_count_zero e6, hx5, accentsPass_count_zero e5, hx4,
    invisiblePass_count_zero e4, hx3, ellipsisPass_count_zero e3, hx2,
    curlyPass_count_zero e2, hx1, emDashPass_count_zero e1]

theorem applyTextFixes_changed_pos {s : Settings} {t : JStr}
    (h : (applyTextFixes s t).1 ≠ t) : 0 < sumFixCounts (applyTextFixes s t).2 := by
  by_contra hc
  exact h (applyTextFixes_unchanged_of_counts_zero (by omega))

theorem replaceInRoot_history_facts (s : Settings) (doc : List TNode) (ps : List Nat) :
    (∀ e ∈ (replaceInRoot s doc ps).history,
        e.totalFixes = sumFixCounts e.fixCounts ∧
        e.after = (applyTextFixes s e.before).1 ∧
        e.fixCounts = (applyTextFixes s e.before).2 ∧
        e.after ≠ e.before) ∧
    (replaceInRoot s doc ps).total =
      ((replaceInRoot s doc ps).history.map (fun e => e.totalFixes)).sum := by
  induction doc generalizing ps with
  | nil => simp [replaceInRoot]
  | cons n rest ih =>
    by_cases h1 : n.id ∈ ps
    · rw [replaceInRoot_skip_processed h1]; exact ih ps
    · by_cases h2 : needsProcessing s n.text = false
      · rw [replaceInRoot_skip_needs h1 h2]; exact ih ps
      · have h2t : needsProcessing s n.text = true := bool_true_of_not_false h2
        by_cases h3 : n.excluded = true
        · rw [replaceInRoot_skip_excluded h1 h2t h3]; exact ih ps
        · have h3f : n.excluded = false := bool_false_of_not_true h3
          by_cases h4 : (applyTextFixes s n.text).1 = n.text
          · rw [replaceInRoot_unchanged h1 h2t h3f h4]; exact ih ps
          · rw [replaceInRoot_changed h1 h2t h3f h4]
            obtain ⟨ihA, ihB⟩ := ih (n.id :: ps)
            constructor
            · intro e he
              rcases List.mem_cons.1 he with rfl | he
              · exact ⟨rfl, rfl, rfl, h4⟩
              · exact ihA e he
            · simp only [List.map_cons, List.sum_cons]
              rw [ihB]

/-- C10: every history entry a scan emits has totalFixes equal to the sum
of its per-category counts, records the transform of its before text as
its after text with the matching counts, and differs before/after; the
scanner's returned replacement total is exactly the sum of totalFixes
over the emitted entries. -/
theorem c10_totalfixes_consistency (s : Settings) (doc : List TNode) (ps : List Nat) :
    (∀ e ∈ (replaceInRoot s doc ps).history,
        e.totalFixes = sumFixCounts e.fixCounts ∧
        e.after = (applyTextFixes s e.before).1 ∧
        e.fixCounts = (applyTextFixes s e.before).2 ∧
        e.after ≠ e.before) ∧
    (replaceInRoot s doc ps).total =
      ((replaceInRoot s doc ps).history.map (fun e => e.totalFixes)).sum :=
  replaceInRoot_history_facts s doc ps

/-- Witness for C10 at a one-node document containing an em dash: the
total is the sum of entry totals and each entry satisfies the count sum. -/
theorem c10_witness :
    (replaceInRoot (⟨[45], true, true, true, true, false, true⟩ : Settings)
        [⟨0, [97, 0x2014, 98], false⟩] []).total =
      (((replaceInRoot (⟨[45], true, true, true, true, false, true⟩ : Settings)
        [⟨0, [97, 0x2014, 98], false⟩] []).history).map (fun e => e.totalFixes)).sum ∧
    ∀ e ∈ (replaceInRoot (⟨[45], true, true, true, true, false, true⟩ : Settings)
        [⟨0, [97, 0x2014, 98], false⟩] []).history,
      e.totalFixes = sumFixCounts e.fixCounts := by
  have h := c10_totalfixes_consistency (⟨[45], true, true, true, true, false, true⟩ : Settings)
    [⟨0, [97, 0x2014, 98], false⟩] []
  exact ⟨h.2, fun e he => (h.1 e he).1⟩

/-- Persisted statistics state read and written by the aggregator. -/
structure StoreState where
  history : List HistoryEntry
  totalReplacements : Nat
  fixStats : FixCounts
deriving Repr, DecidableEq

/-- Category-wise addition used when folding local entries into the
persisted fix statistics. -/
def addFixStats (a b : FixCounts) : FixCounts :=
  ⟨a.emDash + b.emDash, a.curlyQuotes + b.curlyQuotes, a.ellipsis + b.ellipsis,
   a.invisibleChars + b.invisibleChars, a.accents + b.accents, a.spaces + b.spaces⟩

/-- Concatenation of the after texts of this scan's entries, joined by a
newline, as sent in the broadcast. -/
def joinAfterTexts (hs : List HistoryEntry) : JStr :=
  List.intercalate [10] (hs.map (fun e => e.after))

/-- The aggregator `updateStorageWithResults(localHistory, replacementCount)`:
reads the persisted state, appends the local entries after the stored
history, adds the replacement count to the stored total, folds the
per-category counters into the stored statistics, trims the combined
history to its last 100 entries (`slice(-100)`), writes the merged state
back, and sends the broadcast payload (delta count, joined after texts). -/
def updateStorageWithResults (store : StoreState) (localHistory : List HistoryEntry)
    (replacementCount : Nat) : StoreState × Nat × JStr :=
  let newHistory := store.history ++ localHistory
  let newTotal := store.totalReplacements + replacementCount
  let newStats := localHistory.foldl (fun acc e => addFixStats acc e.fixCounts) store.fixStats
  let trimmedHistory := newHistory.drop (newHistory.length - 100)
  (⟨trimmedHistory, newTotal, newStats⟩, replacementCount, joinAfterTexts localHistory)

/-- C8: after any merge the persisted history holds at most 100 entries;
when the combined length fits, it is exactly the stored history followed
by the local entries in arrival order; in general the kept entries are a
suffix of that concatenation (the most recent ones), the dropped prefix
being exactly the oldest combined-length-minus-100 entries. -/
theorem c8_history_bounded_fifo (store : StoreState) (localHistory : List HistoryEntry)
    (replacementCount : Nat) :
    (updateStorageWithResults store localHistory replacementCount).1.history.length ≤ 100 ∧
    (store.history.length + localHistory.length ≤ 100 →
      (updateStorageWithResults store localHistory replacementCount).1.history =
        store.history ++ localHistory) ∧
    ∃ dropped : List HistoryEntry,
      dropped ++ (updateStorageWithResults store localHistory replacementCount).1.history =
        store.history ++ localHistory ∧
      dropped.length = store.history.length + localHistory.length - 100 := by
  refine ⟨?_, ?_, ?_⟩
  · show ((store.history ++ localHistory).drop
      ((store.history ++ localHistory).length - 100)).length ≤ 100
    rw [List.length_drop]
    omega
  · intro hle
    show (store.history ++ localHistory).drop
        ((store.history ++ localHistory).length - 100) = store.history ++ localHistory
    have hz : (store.history ++ localHistory).length - 100 = 0 := by
      rw [List.length_append]; omega
    rw [hz, List.drop_zero]
  · refine ⟨(store.history ++ localHistory).take
      ((store.history ++ localHistory).length - 100), ?_, ?_⟩
    · exact List.take_append_drop _ _
    · rw [List.length_take, List.length_append]
      omega

/-- Witness for C8: merging one entry into an empty store keeps it whole
and within the bound. -/
theorem c8_witness :
    (updateStorageWithResults ⟨[], 0, ⟨0, 0, 0, 0, 0, 0⟩⟩
        [⟨[0x2014], [45], ⟨1, 0, 0, 0, 0, 0⟩, 1⟩] 1).1.history =
      [⟨[0x2014], [45], ⟨1, 0, 0, 0, 0, 0⟩, 1⟩] ∧
    (updateStorageWithResults ⟨[], 0, ⟨0, 0, 0, 0, 0, 0⟩⟩
        [⟨[0x2014], [45], ⟨1, 0, 0, 0, 0, 0⟩, 1⟩] 1).1.history.length ≤ 100 := by
  have h := c8_history_bounded_fifo ⟨[], 0, ⟨0, 0, 0, 0, 0, 0⟩⟩
    [⟨[0x2014], [45], ⟨1, 0, 0, 0, 0, 0⟩, 1⟩] 1
  exact ⟨by simpa using h.2.1 (by decide), h.1⟩

/-- Result of the shadow-roots loop of `performScan`. -/
structure RootsResult where
  roots : List (List TNode)
  processed : List Nat
  history : List HistoryEntry
  total : Nat
deriving Repr, DecidableEq

/-- The shadow-roots loop of `performScan`: each shadow root is scanned
with `replaceInRoot`, threading the processed set and accumulating the
history entries and replacement counts in order. -/
def scanRoots (s : Settings) : List (List TNode) → List Nat → RootsResult
  | [], ps => ⟨[], ps, [], 0⟩
  | r :: rest, ps =>
    let a := replaceInRoot s r ps
    let b := scanRoots s rest a.processed
    ⟨a.nodes :: b.roots, b.processed, a.history ++ b.history, a.total + b.total⟩

/-- Outcome of one `performScan`: the rewritten roots (main document
first, then the shadow roots), the processed set, the possibly-updated
store, the broadcasts emitted, and this scan's replacement count. -/
structure ScanOutcome where
  roots : List (List TNode)
  processed : List Nat
  store : StoreState
  broadcasts : List (Nat × JStr)
  replacementsThisScan : Nat
deriving Repr, DecidableEq

/-- The local history accumulated by one `performScan` (main document,
then shadow roots). -/
def scanHistory (s : Settings) (doc : List TNode) (shadows : List (List TNode))
    (ps : List Nat) : List HistoryEntry :=
  (replaceInRoot s doc ps).history ++
    (scanRoots s shadows (replaceInRoot s doc ps).processed).history

/-- The replacement count accumulated by one `performScan`. -/
def scanTotal (s : Settings) (doc : List TNode) (shadows : List (List TNode))
    (ps : List Nat) : Nat :=
  (replaceInRoot s doc ps).total +
    (scanRoots s shadows (replaceInRoot s doc ps).processed).total

/-- The engine's `performScan`: returns immediately when the engine is
inactive; otherwise scans the main document and then every shadow root,
and only when this scan made at least one replacement invokes the storage
merge and emits the single broadcast it produces. -/
def performScan (s : Settings) (isActive : Bool) (doc : List TNode)
    (shadows : List (List TNode)) (ps : List Nat) (store : StoreState) : ScanOutcome :=
  if isActive = false then ⟨doc :: shadows, ps, store, [], 0⟩
  else
    let a := replaceInRoot s doc ps
    let b := scanRoots s shadows a.processed
    if 0 < a.total + b.total then
      let u := updateStorageWithResults store (a.history ++ b.history) (a.total + b.total)
      ⟨a.nodes :: b.roots, b.processed, u.1, [u.2], a.total + b.total⟩
    else ⟨a.nodes :: b.roots, b.processed, store, [], a.total + b.total⟩

theorem replaceInRoot_entry_pos (s : Settings) (doc : List TNode) (ps : List Nat) :
    ∀ e ∈ (replaceInRoot s doc ps).history, 0 < e.totalFixes := by
  intro e he
  obtain ⟨h1, h2, h3, h4⟩ := (replaceInRoot_history_facts s doc ps).1 e he
  have h5 : (applyTextFixes s e.before).1 ≠ e.before := by
    rw [← h2]; exact h4
  rw [h1, h3]
  exact applyTextFixes_changed_pos h5

theorem scanRoots_history_facts (s : Settings) :
    ∀ (shadows : List (List TNode)) (ps : List Nat),
      (scanRoots s shadows ps).total =
        (((scanRoots s shadows ps).history).map (fun e => e.totalFixes)).sum ∧
      ∀ e ∈ (scanRoots s shadows ps).history, 0 < e.totalFixes := by
  intro shadows
  induction shadows with
  | nil =>
    intro ps
    exact ⟨rfl, by intro e he; simp [scanRoots] at he⟩
  | cons r rest ih =>
    intro ps
    have hr := replaceInRoot_history_facts s r ps
    have hrp := replaceInRoot_entry_pos s r ps
    have hb := ih (replaceInRoot s r ps).processed
    constructor
    · show (replaceInRoot s r ps).total +
          (scanRoots s rest (replaceInRoot s r ps).processed).total =
        (((replaceInRoot s r ps).history ++
          (scanRoots s rest (replaceInRoot s r ps).processed).history).map
            (fun e => e.totalFixes)).sum
      rw [List.map_append, List.sum_append, hr.2, hb.1]
    · intro e he
      show 0 < e.totalFixes
      have he2 : e ∈ (replaceInRoot s r ps).history ++
          (scanRoots s rest (replaceInRoot s r ps).processed).history := he
      rcases List.mem_append.1 he2 with h | h
      · exact hrp e h
      · exact hb.2 e h

theorem scanHistory_facts (s : Settings) (doc : List TNode)
    (shadows : List (List TNode)) (ps : List Nat) :
    scanTotal s doc shadows ps =
      ((scanHistory s doc shadows ps).map (fun e => e.totalFixes)).sum ∧
    ∀ e ∈ scanHistory s doc shadows ps, 0 < e.totalFixes := by
  have ha := replaceInRoot_history_facts s doc ps
  have hap := replaceInRoot_entry_pos s doc ps
  have hb := scanRoots_history_facts s shadows (replaceInRoot s doc ps).processed
  constructor
  · unfold scanTotal scanHistory
    rw [List.map_append, List.sum_append, ha.2, hb.1]
  · intro e he
    unfold scanHistory at he
    rcases List.mem_append.1 he with h | h
    · exact hap e h
    · exact hb.2 e h

theorem scanTotal_pos_iff (s : Settings) (doc : List TNode)
    (shadows : List (List TNode)) (ps : List Nat) :
    0 < scanTotal s doc shadows ps ↔ scanHistory s doc shadows ps ≠ [] := by
  obtain ⟨hsum, hpos⟩ := scanHistory_facts s doc shadows ps
  constructor
  · intro h hnil
    rw [hsum, hnil] at h
    simp at h
  · intro h
    cases hh : scanHistory s doc shadows ps with
    | nil => exact absurd hh h
    | cons e rest =>
      rw [hsum, hh]
      have he : 0 < e.totalFixes := hpos e (by rw [hh]; exact List.mem_cons_self _ _)
      simp only [List.map_cons, List.sum_cons]
      omega

theorem performScan_active_eq (s : Settings) (doc : List TNode)
    (shadows : List (List TNode)) (ps : List Nat) (store : StoreState) :
    performScan s true doc shadows ps store =
      if 0 < scanTotal s doc shadows ps then
        ⟨(replaceInRoot s doc ps).nodes ::
            (scanRoots s shadows (replaceInRoot s doc ps).processed).roots,
          (scanRoots s shadows (replaceInRoot s doc ps).processed).processed,
          (updateStorageWithResults store (scanHistory s doc shadows ps)
            (scanTotal s doc shadows ps)).1,
          [(updateStorageWithResults store (scanHistory s doc shadows ps)
            (scanTotal s doc shadows ps)).2],
          scanTotal s doc shadows ps⟩
      else
        ⟨(replaceInRoot s doc ps).nodes ::
            (scanRoots s shadows (replaceInRoot s doc ps).processed).roots,
          (scanRoots s shadows (replaceInRoot s doc ps).processed).processed,
          store, [], scanTotal s doc shadows ps⟩ := by
  simp only [performScan, scanHistory, scanTotal]
  rfl

/-- C7 counterexample: an active engine scanning a document whose only
node needs no processing completes a scan with zero replacements, and the
storage merge is not executed (the store is returned untouched) and no
broadcast is emitted. -/
theorem c7_zero_change_scan_skips_merge :
    performScan (⟨[45], true, true, true, true, false, true⟩ : Settings) true
        [⟨0, [104, 105], false⟩] [] [] ⟨[], 5, ⟨1, 0, 0, 0, 0, 0⟩⟩ =
      ⟨[[⟨0, [104, 105], false⟩]], [], ⟨[], 5, ⟨1, 0, 0, 0, 0, 0⟩⟩, [], 0⟩ := by
  decide

/-- C7 (amended): a scan of an active engine runs the storage merge and
emits exactly one broadcast — carrying the delta count and the joined
after texts — precisely when the scan changed at least one node
(equivalently, emitted at least one history entry); a completed scan with
zero changes performs no merge, leaves the store untouched, and
broadcasts nothing. -/
theorem c7_merge_iff_scan_changed (s : Settings) (doc : List TNode)
    (shadows : List (List TNode)) (ps : List Nat) (store : StoreState) :
    (0 < scanTotal s doc shadows ps ↔ scanHistory s doc shadows ps ≠ []) ∧
    (scanHistory s doc shadows ps = [] →
      (performScan s true doc shadows ps store).store = store ∧
      (performScan s true doc shadows ps store).broadcasts = []) ∧
    (scanHistory s doc shadows ps ≠ [] →
      (performScan s true doc shadows ps store).store =
        (updateStorageWithResults store (scanHistory s doc shadows ps)
          (scanTotal s doc shadows ps)).1 ∧
      (performScan s true doc shadows ps store).broadcasts =
        [(scanTotal s doc shadows ps, joinAfterTexts (scanHistory s doc shadows ps))]) := by
  have hiff := scanTotal_pos_iff s doc shadows ps
  refine ⟨hiff, ?_, ?_⟩
  · intro hnil
    have hz : ¬0 < scanTotal s doc shadows ps := by
      intro hpos
      exact (hiff.1 hpos) hnil
    rw [performScan_active_eq, if_neg hz]
    exact ⟨rfl, rfl⟩
  · intro hne
    have hpos : 0 < scanTotal s doc shadows ps := hiff.2 hne
    rw [performScan_active_eq, if_pos hpos]
    exact ⟨rfl, rfl⟩

/-- Witness for C7: a clean one-node document under an active engine ends
with the store untouched and no broadcast. -/
theorem c7_witness :
    (performScan (⟨[45], true, true, true, true, false, true⟩ : Settings) true
        [⟨0, [104, 105], false⟩] [] [] ⟨[], 5, ⟨1, 0, 0, 0, 0, 0⟩⟩).store =
      ⟨[], 5, ⟨1, 0, 0, 0, 0, 0⟩⟩ ∧
    (performScan (⟨[45], true, true, true, true, false, true⟩ : Settings) true
        [⟨0, [104, 105], false⟩] [] [] ⟨[], 5, ⟨1, 0, 0, 0, 0, 0⟩⟩).broadcasts = [] := by
  have h := c7_merge_iff_scan_changed (⟨[45], true, true, true, true, false, true⟩ : Settings)
    [⟨0, [104, 105], false⟩] [] [] ⟨[], 5, ⟨1, 0, 0, 0, 0, 0⟩⟩
  exact h.2.1 (by decide)

theorem scanRoots_processed_subset (s : Settings) :
    ∀ (shadows : List (List TNode)) (ps : List Nat) (x : Nat),
      x ∈ ps → x ∈ (scanRoots s shadows ps).processed := by
  intro shadows
  induction shadows with
  | nil => intro ps x hx; exact hx
  | cons r rest ih =>
    intro ps x hx
    exact ih _ x (replaceInRoot_processed_subset s r ps x hx)

theorem replaceInRoot_keeps_processed_nodes (s : Settings) :
    ∀ (doc : List TNode) (ps : List Nat) (i : Nat) (n : TNode),
      doc.get? i = some n → n.id ∈ ps →
      (replaceInRoot s doc ps).nodes.get? i = some n := by
  intro doc
  induction doc with
  | nil => intro ps i n hget; simp at hget
  | cons m rest ih =>
    intro ps i n hget hmem
    cases i with
    | zero =>
      have hmn : m = n := by simpa using hget
      subst hmn
      rw [replaceInRoot_skip_processed hmem]
      rfl
    | succ j =>
      have hget2 : rest.get? j = some n := by simpa using hget
      by_cases h1 : m.id ∈ ps
      · rw [replaceInRoot_skip_processed h1]
        simpa using ih ps j n hget2 hmem
      · by_cases h2 : needsProcessing s m.text = false
        · rw [replaceInRoot_skip_needs h1 h2]
          simpa using ih ps j n hget2 hmem
        · have h2t := bool_true_of_not_false h2
          by_cases h3 : m.excluded = true
          · rw [replaceInRoot_skip_excluded h1 h2t h3]
            simpa using ih ps j n hget2 hmem
          · have h3f := bool_false_of_not_true h3
            by_cases h4 : (applyTextFixes s m.text).1 = m.text
            · rw [replaceInRoot_unchanged h1 h2t h3f h4]
              simpa using ih ps j n hget2 hmem
            · rw [replaceInRoot_changed h1 h2t h3f h4]
              simpa using ih (m.id :: ps) j n hget2 (List.mem_cons_of_mem _ hmem)

/-- Mutable engine state relevant to the settings-update path. -/
structure Engine where
  isActive : Bool
  settings : Settings
  processed : List Nat
  replacementCount : Nat
deriving Repr, DecidableEq

/-- The settingsUpdated branch of the message listener: `loadSettings`
replaces the settings snapshot from the store, then `performImmediateScan`
runs one `performScan` against the engine's existing processed set (the
listener never resets `processedNodes`). -/
def handleSettingsUpdated (stored : StoredData) (e : Engine) (doc : List TNode)
    (shadows : List (List TNode)) (store : StoreState) : Engine × ScanOutcome :=
  let s2 := loadSettings stored
  let out := performScan s2 e.isActive doc shadows e.processed store
  (⟨e.isActive, s2, out.processed,
    e.replacementCount + out.replacementsThisScan⟩, out)

/-- C2 counterexample: with accent stripping newly enabled in the store, a
node already in the processed set keeps its identity in the set through
the settingsUpdated handler and its text is not rewritten by the triggered
scan, although the new transform would change it. -/
theorem c2_settings_update_keeps_processed_set :
    0 ∈ (handleSettingsUpdated ⟨some [45], none, none, none, none, some true, none⟩
        ⟨true, ⟨[45], true, true, true, true, false, true⟩, [0], 0⟩
        [⟨0, [0xE9], false⟩] [] ⟨[], 0, ⟨0, 0, 0, 0, 0, 0⟩⟩).1.processed ∧
    (handleSettingsUpdated ⟨some [45], none, none, none, none, some true, none⟩
        ⟨true, ⟨[45], true, true, true, true, false, true⟩, [0], 0⟩
        [⟨0, [0xE9], false⟩] [] ⟨[], 0, ⟨0, 0, 0, 0, 0, 0⟩⟩).2.roots =
      [[⟨0, [0xE9], false⟩]] ∧
    (applyTextFixes (loadSettings ⟨some [45], none, none, none, none, some true, none⟩)
      [0xE9]).1 ≠ [0xE9] := by
  decide

/-- C2 (amended): the settingsUpdated handler installs the freshly fetched
settings and triggers one immediate scan, but the ProcessedSet is not
cleared: every previously processed identity is still in the set after
the handler, and every document node whose identity was already processed
is left untouched by the triggered scan. -/
theorem c2_reload_scans_without_clearing (stored : StoredData) (e : Engine)
    (doc : List TNode) (shadows : List (List TNode)) (store : StoreState)
    (hact : e.isActive = true) :
    (handleSettingsUpdated stored e doc shadows store).1.settings = loadSettings stored ∧
    (∀ x ∈ e.processed,
      x ∈ (handleSettingsUpdated stored e doc shadows store).1.processed) ∧
    ∀ (i : Nat) (n : TNode), doc.get? i = some n → n.id ∈ e.processed →
      ((handleSettingsUpdated stored e doc shadows store).2.roots.headD []).get? i =
        some n := by
  have hout : (handleSettingsUpdated stored e doc shadows store).2 =
      performScan (loadSettings stored) e.isActive doc shadows e.processed store := rfl
  refine ⟨rfl, ?_, ?_⟩
  · intro x hx
    have hp : (handleSettingsUpdated stored e doc shadows store).1.processed =
        (performScan (loadSettings stored) e.isActive doc shadows e.processed
          store).processed := rfl
    rw [hp, hact, performScan_active_eq]
    by_cases hpos : 0 < scanTotal (loadSettings stored) doc shadows e.processed
    · rw [if_pos hpos]
      exact scanRoots_processed_subset _ _ _ x
        (replaceInRoot_processed_subset _ _ _ x hx)
    · rw [if_neg hpos]
      exact scanRoots_processed_subset _ _ _ x
        (replaceInRoot_processed_subset _ _ _ x hx)
  · intro i n hget hmem
    have hr : (handleSettingsUpdated stored e doc shadows store).2.roots =
        (replaceInRoot (loadSettings stored) doc e.processed).nodes ::
          (scanRoots (loadSettings stored) shadows
            (replaceInRoot (loadSettings stored) doc e.processed).processed).roots := by
      rw [hout, hact, performScan_active_eq]
      by_cases hpos : 0 < scanTotal (loadSettings stored) doc shadows e.processed
      · rw [if_pos hpos]
      · rw [if_neg hpos]
    rw [hr]
    show ((replaceInRoot (loadSettings stored) doc e.processed).nodes).get? i = some n
    exact replaceInRoot_keeps_processed_nodes _ doc e.processed i n hget hmem

/-- Witness for the amended C2 theorem at the counterexample's engine
state: the settings are refreshed, identity 0 stays processed, and the
processed node is returned untouched. -/
theorem c2_witness :
    (handleSettingsUpdated ⟨some [45], none, none, none, none, some true, none⟩
        ⟨true, ⟨[45], true, true, true, true, false, true⟩, [0], 7⟩
        [⟨0, [0xE9], false⟩] [] ⟨[], 0, ⟨0, 0, 0, 0, 0, 0⟩⟩).1.settings =
      loadSettings ⟨some [45], none, none, none, none, some true, none⟩ ∧
    0 ∈ (handleSettingsUpdated ⟨some [45], none, none, none, none, some true, none⟩
        ⟨true, ⟨[45], true, true, true, true, false, true⟩, [0], 7⟩
        [⟨0, [0xE9], false⟩] [] ⟨[], 0, ⟨0, 0, 0, 0, 0, 0⟩⟩).1.processed ∧
    ((handleSettingsUpdated ⟨some [45], none, none, none, none, some true, none⟩
        ⟨true, ⟨[45], true, true, true, true, false, true⟩, [0], 7⟩
        [⟨0, [0xE9], false⟩] [] ⟨[], 0, ⟨0, 0, 0, 0, 0, 0⟩⟩).2.roots.headD []).get? 0 =
      some ⟨0, [0xE9], false⟩ := by
  have h := c2_reload_scans_without_clearing
    ⟨some [45], none, none, none, none, some true, none⟩
    ⟨true, ⟨[45], true, true, true, true, false, true⟩, [0], 7⟩
    [⟨0, [0xE9], false⟩] [] ⟨[], 0, ⟨0, 0, 0, 0, 0, 0⟩⟩ rfl
  exact ⟨h.1, h.2.1 0 (by decide), h.2.2 0 ⟨0, [0xE9], false⟩ rfl (by decide)⟩

/-- An added node of a childList mutation record: a text node carrying its
content, or an element whose descendant text contents are walked. -/
inductive AddedNode where
  | textNode (content : JStr)
  | element (subtreeTexts : List JStr)
deriving Repr, DecidableEq

/-- A mutation record as inspected by `handleMutations`. -/
inductive MutationRec where
  | childList (addedNodes : List AddedNode)
  | characterData (targetText : JStr)
deriving Repr, DecidableEq

/-- Whether an added node makes the batch scan-worthy: `containsTargetText`
on a text node, `containsTargetTextInSubtree` on an element; both reduce
to the `needsProcessing` pre-check on the text contents. -/
def addedNodeNeedsScan (s : Settings) : AddedNode → Bool
  | .textNode t => needsProcessing s t
  | .element ts => ts.any (fun t => needsProcessing s t)

/-- Whether a mutation record contains transformable text. -/
def mutationNeedsScan (s : Settings) : MutationRec → Bool
  | .childList ns => ns.any (addedNodeNeedsScan s)
  | .characterData t => needsProcessing s t

/-- The Change Monitor `handleMutations(mutations)`: a batch arriving
within the throttle window of the recorded time is dropped outright;
otherwise the arrival time is recorded as `lastScanTime` before the batch
is inspected, and a scan runs only if some member needs processing.
Returns the new recorded time and whether `performScan` was invoked. -/
def handleMutations (s : Settings) (lastScanTime scanThrottle now : Nat)
    (ms : List MutationRec) : Nat × Bool :=
  if now - lastScanTime < scanThrottle then (lastScanTime, false)
  else (now, ms.any (mutationNeedsScan s))

/-- C4 counterexample: a batch with no transformable text arriving at time
1000 (outside the 100ms window of the initial time 0) triggers no scan but
records 1000 as the last-scan time; the transformable batch arriving at
1050 is then dropped, contrary to the claim. -/
theorem c4_empty_batch_records_scan_time :
    (handleMutations (⟨[45], true, true, true, true, false, true⟩ : Settings) 0 100 1000
        [MutationRec.characterData [104, 105]]).1 = 1000 ∧
    (handleMutations (⟨[45], true, true, true, true, false, true⟩ : Settings) 0 100 1000
        [MutationRec.characterData [104, 105]]).2 = false ∧
    (handleMutations (⟨[45], true, true, true, true, false, true⟩ : Settings)
        (handleMutations (⟨[45], true, true, true, true, false, true⟩ : Settings) 0 100 1000
          [MutationRec.characterData [104, 105]]).1 100 1050
        [MutationRec.characterData [0x2014]]).2 = false := by
  decide

/-- C4 (amended): a batch outside the throttle window none of whose
members contains transformable text triggers no scan, but its arrival
time is recorded as the last-scan time; consequently every batch arriving
within the minimum interval of that arrival is dropped, transformable or
not. -/
theorem c4_no_scan_but_time_recorded (s : Settings)
    (lastScanTime scanThrottle now now2 : Nat) (ms ms2 : List MutationRec)
    (h1 : scanThrottle ≤ now - lastScanTime)
    (h2 : ms.any (mutationNeedsScan s) = false)
    (h3 : now2 - now < scanThrottle) :
    handleMutations s lastScanTime scanThrottle now ms = (now, false) ∧
    handleMutations s now scanThrottle now2 ms2 = (now, false) := by
  constructor
  · simp only [handleMutations]
    rw [if_neg (by omega), h2]
  · simp only [handleMutations]
    rw [if_pos h3]

/-- Witness for the amended C4 theorem at the counterexample's inputs. -/
theorem c4_witness :
    handleMutations (⟨[45], true, true, true, true, false, true⟩ : Settings) 0 100 1000
        [MutationRec.characterData [104, 105]] = (1000, false) ∧
    handleMutations (⟨[45], true, true, true, true, false, true⟩ : Settings) 1000 100 1050
        [MutationRec.characterData [0x2014]] = (1000, false) :=
  c4_no_scan_but_time_recorded (⟨[45], true, true, true, true, false, true⟩ : Settings)
    0 100 1000 1050 [MutationRec.characterData [104, 105]]
    [MutationRec.characterData [0x2014]] (by decide) (by decide) (by decide)
